import Mathlib

/-!
Verification of the acme-cert-worker TypeScript repository.

The TypeScript sources are shallowly embedded: bytes are `Nat` values
(assumed `< 256` where it matters, since the source manipulates
`Uint8Array`s), JS strings are Lean `String`s (treated as sequences of
characters; the sources never rely on surrogate-pair length effects),
and every platform primitive (WebCrypto digests and signatures, the
Cloudflare HTTP API, the network, the clock) is an explicit oracle
argument, so that every repository function is an executable Lean
definition.
-/

deriving instance DecidableEq for Except

namespace AcmeWorker

/-! ### base64 primitives (src/utils/base64url.ts)

`btoa`/`atob` are the JS platform's standard-alphabet base64
encoder/decoder over binary strings whose char codes are the bytes;
they are modelled here directly on byte lists. -/

def base64Chars : List Char :=
  "ABCDEFGHIJKLMNOPQRSTUVWXYZabcdefghijklmnopqrstuvwxyz0123456789+/".data

/-- Character of a 6-bit value in the standard base64 alphabet. -/
def b64c (n : Nat) : Char := base64Chars.getD n 'A'

/-- Index of a character in the standard base64 alphabet. -/
def b64inv (c : Char) : Nat := base64Chars.findIdx (· = c)

def isB64Char (c : Char) : Bool := base64Chars.contains c

/-- Model of `btoa` on a binary string holding the given bytes, producing the
padded standard base64 character sequence. -/
def base64Encode : List Nat → List Char
  | [] => []
  | [a] => [b64c (a / 4), b64c (a % 4 * 16), '=', '=']
  | [a, b] => [b64c (a / 4), b64c (a % 4 * 16 + b / 16), b64c (b % 16 * 4), '=']
  | a :: b :: c :: rest =>
    b64c (a / 4) :: b64c (a % 4 * 16 + b / 16) :: b64c (b % 16 * 4 + c / 64) ::
      b64c (c % 64) :: base64Encode rest

/-- Decoding of the final 4-character group, where `'='` padding may
appear. -/
def atobLastChunk (c1 c2 c3 c4 : Char) : Option (List Nat) :=
  if isB64Char c1 ∧ isB64Char c2 then
    if c3 = '=' then
      if c4 = '=' then some [b64inv c1 * 4 + b64inv c2 / 16] else none
    else if isB64Char c3 then
      if c4 = '=' then
        some [b64inv c1 * 4 + b64inv c2 / 16, b64inv c2 % 16 * 16 + b64inv c3 / 4]
      else if isB64Char c4 then
        some [b64inv c1 * 4 + b64inv c2 / 16, b64inv c2 % 16 * 16 + b64inv c3 / 4,
          b64inv c3 % 4 * 64 + b64inv c4]
      else none
    else none
  else none

/-- Model of `atob`: decodes a padded standard base64 character sequence;
`none` models the `InvalidCharacterError` the platform throws. -/
def atobBytes : List Char → Option (List Nat)
  | [] => some []
  | c1 :: c2 :: c3 :: c4 :: rest =>
    if rest.isEmpty then atobLastChunk c1 c2 c3 c4
    else if isB64Char c1 ∧ isB64Char c2 ∧ isB64Char c3 ∧ isB64Char c4 then
      (atobBytes rest).map (fun tail =>
        (b64inv c1 * 4 + b64inv c2 / 16) :: (b64inv c2 % 16 * 16 + b64inv c3 / 4) ::
          (b64inv c3 % 4 * 64 + b64inv c4) :: tail)
    else none
  | _ => none

/-- Model of `value.replace` stripping `=`: drop the trailing run of `'='`. -/
def stripTrailingEq : List Char → List Char
  | [] => []
  | c :: rest =>
    let r := stripTrailingEq rest
    if r = [] ∧ c = '=' then [] else c :: r

def urlOfStd (c : Char) : Char :=
  if c = '+' then '-' else if c = '/' then '_' else c

def stdOfUrl (c : Char) : Char :=
  if c = '-' then '+' else if c = '_' then '/' else c

/-- Function `base64UrlEncode` from src/utils/base64url.ts: `btoa` on the bytes,
then `+`→`-`, `/`→`_`, trailing `=` stripped. -/
def base64UrlEncode (l : List Nat) : String :=
  ⟨(stripTrailingEq (base64Encode l)).map urlOfStd⟩

/-- Padding formula `"===".slice((normalized.length + 3) % 4)`: the padding re-added
before decoding. -/
def padEq (n : Nat) : List Char := List.replicate (3 - (n + 3) % 4) '='

def jsTrim (l : List Char) : List Char :=
  ((l.dropWhile (·.isWhitespace)).reverse.dropWhile (·.isWhitespace)).reverse

/-- Function `base64UrlDecodeToBytes` from src/utils/base64url.ts: trim, strip
trailing `=`, map the URL alphabet back, re-pad, `atob`. -/
def base64UrlDecodeToBytes (s : String) : Option (List Nat) :=
  let t := (stripTrailingEq (jsTrim s.data)).map stdOfUrl
  atobBytes (t ++ padEq t.length)

/-- Unpadded base64: the shape of `base64Encode` after stripping `=`. -/
def base64EncodeNoPad : List Nat → List Char
  | [] => []
  | [a] => [b64c (a / 4), b64c (a % 4 * 16)]
  | [a, b] => [b64c (a / 4), b64c (a % 4 * 16 + b / 16), b64c (b % 16 * 4)]
  | a :: b :: c :: rest =>
    b64c (a / 4) :: b64c (a % 4 * 16 + b / 16) :: b64c (b % 16 * 4 + c / 64) ::
      b64c (c % 64) :: base64EncodeNoPad rest

theorem base64Chars_length : base64Chars.length = 64 := by decide

theorem b64c_ne_eq (n : Nat) : b64c n ≠ '=' := by
  by_cases hn : n < 64
  · exact (by decide : ∀ m, m < 64 → b64c m ≠ '=') n hn
  · show base64Chars.getD n 'A' ≠ '='
    rw [List.getD_eq_default _ _ (by rw [base64Chars_length]; omega)]
    decide

theorem isB64Char_b64c (n : Nat) : isB64Char (b64c n) = true := by
  by_cases hn : n < 64
  · exact (by decide : ∀ m, m < 64 → isB64Char (b64c m) = true) n hn
  · show isB64Char (base64Chars.getD n 'A') = true
    rw [List.getD_eq_default _ _ (by rw [base64Chars_length]; omega)]
    decide

theorem b64inv_b64c (n : Nat) (h : n < 64) : b64inv (b64c n) = n := by
  revert n h; decide

theorem stripTrailingEq_of_no_eq (l : List Char) (h : ∀ c ∈ l, c ≠ '=') :
    stripTrailingEq l = l := by
  induction l with
  | nil => rfl
  | cons c rest ih =>
    have hc : c ≠ '=' := h c (by simp)
    have hr : stripTrailingEq rest = rest := ih (fun x hx => h x (by simp [hx]))
    simp [stripTrailingEq, hr, hc]

theorem stripTrailingEq_append_of_ne (xs ys : List Char)
    (h : stripTrailingEq ys ≠ []) :
    stripTrailingEq (xs ++ ys) = xs ++ stripTrailingEq ys := by
  induction xs with
  | nil => rfl
  | cons x xs ih =>
    have hne : stripTrailingEq (xs ++ ys) ≠ [] := by
      rw [ih]; intro hcontra
      exact h (List.append_eq_nil.mp hcontra).2
    show (if stripTrailingEq (xs ++ ys) = [] ∧ x = '=' then []
        else x :: stripTrailingEq (xs ++ ys)) = x :: (xs ++ stripTrailingEq ys)
    rw [if_neg (fun hc => hne hc.1), ih]

theorem base64EncodeNoPad_ne_nil (l : List Nat) (h : l ≠ []) :
    base64EncodeNoPad l ≠ [] := by
  match l with
  | [] => exact absurd rfl h
  | [_] => simp [base64EncodeNoPad]
  | [_, _] => simp [base64EncodeNoPad]
  | _ :: _ :: _ :: _ => simp [base64EncodeNoPad]

theorem stripTrailingEq_base64Encode :
    ∀ l : List Nat, stripTrailingEq (base64Encode l) = base64EncodeNoPad l
  | [] => rfl
  | [a] => by simp [base64Encode, base64EncodeNoPad, stripTrailingEq, b64c_ne_eq]
  | [a, b] => by simp [base64Encode, base64EncodeNoPad, stripTrailingEq, b64c_ne_eq]
  | [a, b, c] => by simp [base64Encode, base64EncodeNoPad, stripTrailingEq, b64c_ne_eq]
  | a :: b :: c :: d :: rest => by
    have ih := stripTrailingEq_base64Encode (d :: rest)
    have hne : stripTrailingEq (base64Encode (d :: rest)) ≠ [] := by
      rw [ih]; exact base64EncodeNoPad_ne_nil _ (by simp)
    show stripTrailingEq ([b64c (a / 4), b64c (a % 4 * 16 + b / 16),
        b64c (b % 16 * 4 + c / 64), b64c (c % 64)] ++ base64Encode (d :: rest)) = _
    rw [stripTrailingEq_append_of_ne _ _ hne, ih]
    rfl

theorem length_base64EncodeNoPad_cons3 (a b c : Nat) (rest : List Nat) :
    (base64EncodeNoPad (a :: b :: c :: rest)).length =
      4 + (base64EncodeNoPad rest).length := by
  simp only [base64EncodeNoPad, List.length_cons]; omega

/-- Re-padding the unpadded form recovers the padded form. -/
theorem noPad_padEq :
    ∀ l : List Nat, base64EncodeNoPad l ++ padEq (base64EncodeNoPad l).length = base64Encode l
  | [] => rfl
  | [a] => by
    simp [base64EncodeNoPad, base64Encode, padEq, List.replicate]
  | [a, b] => by
    simp [base64EncodeNoPad, base64Encode, padEq, List.replicate]
  | [a, b, c] => by
    simp [base64EncodeNoPad, base64Encode, padEq, List.replicate]
  | a :: b :: c :: d :: rest => by
    have ih := noPad_padEq (d :: rest)
    have hpad : padEq (base64EncodeNoPad (a :: b :: c :: d :: rest)).length
        = padEq (base64EncodeNoPad (d :: rest)).length := by
      rw [length_base64EncodeNoPad_cons3]; unfold padEq; congr 1; omega
    rw [hpad]
    simp only [base64EncodeNoPad, base64Encode, List.cons_append]
    rw [ih]

theorem base64Encode_ne_nil (l : List Nat) (h : l ≠ []) : base64Encode l ≠ [] := by
  match l with
  | [] => exact absurd rfl h
  | [_] => simp [base64Encode]
  | [_, _] => simp [base64Encode]
  | _ :: _ :: _ :: _ => simp [base64Encode]

/-- Composition `atob ∘ btoa` is the identity on byte lists. -/
theorem atobBytes_base64Encode :
    ∀ l : List Nat, (∀ b ∈ l, b < 256) → atobBytes (base64Encode l) = some l
  | [], _ => rfl
  | [a], h => by
    have ha : a < 256 := h a (by simp)
    show atobLastChunk (b64c (a / 4)) (b64c (a % 4 * 16)) '=' '=' = some [a]
    rw [atobLastChunk,
      if_pos ⟨isB64Char_b64c _, isB64Char_b64c _⟩, if_pos rfl, if_pos rfl,
      b64inv_b64c _ (by omega), b64inv_b64c _ (by omega)]
    simp only [Option.some.injEq, List.cons.injEq, and_true]
    omega
  | [a, b], h => by
    have ha : a < 256 := h a (by simp)
    have hb : b < 256 := h b (by simp)
    show atobLastChunk (b64c (a / 4)) (b64c (a % 4 * 16 + b / 16))
        (b64c (b % 16 * 4)) '=' = some [a, b]
    rw [atobLastChunk,
      if_pos ⟨isB64Char_b64c _, isB64Char_b64c _⟩, if_neg (b64c_ne_eq _),
      if_pos (isB64Char_b64c _), if_pos rfl,
      b64inv_b64c _ (by omega), b64inv_b64c _ (by omega), b64inv_b64c _ (by omega)]
    simp only [Option.some.injEq, List.cons.injEq, and_true]
    omega
  | [a, b, c], h => by
    have ha : a < 256 := h a (by simp)
    have hb : b < 256 := h b (by simp)
    have hc : c < 256 := h c (by simp)
    show atobLastChunk (b64c (a / 4)) (b64c (a % 4 * 16 + b / 16))
        (b64c (b % 16 * 4 + c / 64)) (b64c (c % 64)) = some [a, b, c]
    rw [atobLastChunk,
      if_pos ⟨isB64Char_b64c _, isB64Char_b64c _⟩, if_neg (b64c_ne_eq _),
      if_pos (isB64Char_b64c _), if_neg (b64c_ne_eq _), if_pos (isB64Char_b64c _),
      b64inv_b64c _ (by omega), b64inv_b64c _ (by omega), b64inv_b64c _ (by omega),
      b64inv_b64c _ (by omega)]
    simp only [Option.some.injEq, List.cons.injEq, and_true]
    omega
  | a :: b :: c :: d :: rest, h => by
    have ha : a < 256 := h a (by simp)
    have hb : b < 256 := h b (by simp)
    have hc : c < 256 := h c (by simp)
    have ih := atobBytes_base64Encode (d :: rest) (fun x hx => h x (by simp [hx]))
    have hne : base64Encode (d :: rest) ≠ [] := base64Encode_ne_nil _ (by simp)
    show atobBytes (b64c (a / 4) :: b64c (a % 4 * 16 + b / 16) ::
        b64c (b % 16 * 4 + c / 64) :: b64c (c % 64) :: base64Encode (d :: rest)) = _
    rw [atobBytes]
    rw [if_neg (by simpa [List.isEmpty_iff] using hne),
      if_pos ⟨isB64Char_b64c _, isB64Char_b64c _, isB64Char_b64c _, isB64Char_b64c _⟩,
      ih]
    show some _ = some (a :: b :: c :: d :: rest)
    rw [b64inv_b64c _ (by omega), b64inv_b64c _ (by omega),
      b64inv_b64c _ (by omega), b64inv_b64c _ (by omega)]
    simp only [Option.some.injEq, List.cons.injEq, and_true]
    omega

theorem mem_base64EncodeNoPad :
    ∀ l : List Nat, (∀ b ∈ l, b < 256) →
      ∀ x ∈ base64EncodeNoPad l, ∃ n, n < 64 ∧ x = b64c n
  | [], _, x, hx => by simp [base64EncodeNoPad] at hx
  | [a], h, x, hx => by
    have ha : a < 256 := h a (by simp)
    simp only [base64EncodeNoPad, List.mem_cons, List.not_mem_nil, or_false] at hx
    rcases hx with rfl | rfl
    · exact ⟨a / 4, by omega, rfl⟩
    · exact ⟨a % 4 * 16, by omega, rfl⟩
  | [a, b], h, x, hx => by
    have ha : a < 256 := h a (by simp)
    have hb : b < 256 := h b (by simp)
    simp only [base64EncodeNoPad, List.mem_cons, List.not_mem_nil, or_false] at hx
    rcases hx with rfl | rfl | rfl
    · exact ⟨a / 4, by omega, rfl⟩
    · exact ⟨a % 4 * 16 + b / 16, by omega, rfl⟩
    · exact ⟨b % 16 * 4, by omega, rfl⟩
  | [a, b, c], h, x, hx => by
    have ha : a < 256 := h a (by simp)
    have hb : b < 256 := h b (by simp)
    have hc : c < 256 := h c (by simp)
    simp only [base64EncodeNoPad, List.mem_cons, List.not_mem_nil, or_false] at hx
    rcases hx with rfl | rfl | rfl | rfl
    · exact ⟨a / 4, by omega, rfl⟩
    · exact ⟨a % 4 * 16 + b / 16, by omega, rfl⟩
    · exact ⟨b % 16 * 4 + c / 64, by omega, rfl⟩
    · exact ⟨c % 64, by omega, rfl⟩
  | a :: b :: c :: d :: rest, h, x, hx => by
    have ha : a < 256 := h a (by simp)
    have hb : b < 256 := h b (by simp)
    have hc : c < 256 := h c (by simp)
    have hmem : x ∈ (b64c (a / 4) :: b64c (a % 4 * 16 + b / 16) ::
        b64c (b % 16 * 4 + c / 64) :: b64c (c % 64) :: base64EncodeNoPad (d :: rest)) := hx
    simp only [List.mem_cons] at hmem
    rcases hmem with rfl | rfl | rfl | rfl | hmem
    · exact ⟨a / 4, by omega, rfl⟩
    · exact ⟨a % 4 * 16 + b / 16, by omega, rfl⟩
    · exact ⟨b % 16 * 4 + c / 64, by omega, rfl⟩
    · exact ⟨c % 64, by omega, rfl⟩
    · exact mem_base64EncodeNoPad (d :: rest) (fun y hy => h y (by simp [hy])) x hmem

theorem jsTrim_of_no_ws (l : List Char) (h : ∀ c ∈ l, ¬c.isWhitespace) :
    jsTrim l = l := by
  have hdw : ∀ m : List Char, (∀ c ∈ m, ¬c.isWhitespace) →
      m.dropWhile (·.isWhitespace) = m := by
    intro m hm
    match m with
    | [] => rfl
    | c :: t =>
      have := hm c (by simp)
      simp [List.dropWhile, this]
  unfold jsTrim
  rw [hdw l h, hdw l.reverse (fun c hc => h c (List.mem_reverse.mp hc)),
    List.reverse_reverse]

theorem urlOfStd_b64c_not_ws : ∀ n, n < 64 → ¬(urlOfStd (b64c n)).isWhitespace := by
  decide

theorem urlOfStd_b64c_ne_eq : ∀ n, n < 64 → urlOfStd (b64c n) ≠ '=' := by
  decide

theorem stdOfUrl_urlOfStd_b64c : ∀ n, n < 64 → stdOfUrl (urlOfStd (b64c n)) = b64c n := by
  decide

/-- Round trip for the repository's URL-safe encoding/decoding pair. -/
theorem base64UrlDecode_base64UrlEncode (l : List Nat) (h : ∀ b ∈ l, b < 256) :
    base64UrlDecodeToBytes (base64UrlEncode l) = some l := by
  have hchars := mem_base64EncodeNoPad l h
  have hdata : (base64UrlEncode l).data = (base64EncodeNoPad l).map urlOfStd := by
    show (stripTrailingEq (base64Encode l)).map urlOfStd = _
    rw [stripTrailingEq_base64Encode]
  have hnws : ∀ c ∈ (base64EncodeNoPad l).map urlOfStd, ¬c.isWhitespace := by
    intro c hcmem
    rcases List.mem_map.mp hcmem with ⟨x, hx, rfl⟩
    rcases hchars x hx with ⟨n, hn, rfl⟩
    exact urlOfStd_b64c_not_ws n hn
  have hneq : ∀ c ∈ (base64EncodeNoPad l).map urlOfStd, c ≠ '=' := by
    intro c hcmem
    rcases List.mem_map.mp hcmem with ⟨x, hx, rfl⟩
    rcases hchars x hx with ⟨n, hn, rfl⟩
    exact urlOfStd_b64c_ne_eq n hn
  have key : (stripTrailingEq (jsTrim (base64UrlEncode l).data)).map stdOfUrl
      = base64EncodeNoPad l := by
    rw [hdata, jsTrim_of_no_ws _ hnws, stripTrailingEq_of_no_eq _ hneq, List.map_map]
    have hcong : ∀ x ∈ base64EncodeNoPad l, (stdOfUrl ∘ urlOfStd) x = id x := by
      intro x hx
      rcases hchars x hx with ⟨n, hn, rfl⟩
      exact stdOfUrl_urlOfStd_b64c n hn
    rw [List.map_congr_left hcong, List.map_id]
  show atobBytes ((stripTrailingEq (jsTrim (base64UrlEncode l).data)).map stdOfUrl
      ++ padEq ((stripTrailingEq (jsTrim (base64UrlEncode l).data)).map stdOfUrl).length)
      = some l
  rw [key, noPad_padEq]
  exact atobBytes_base64Encode l h

/-! ### UTF-8 encoding (TextEncoder, used by utf8ToBytes) -/

/-- UTF-8 bytes of one code point (the TextEncoder behaviour on
well-formed strings). -/
def charUtf8 (c : Char) : List Nat :=
  if c.toNat < 128 then [c.toNat]
  else if c.toNat < 2048 then [192 + c.toNat / 64, 128 + c.toNat % 64]
  else if c.toNat < 65536 then
    [224 + c.toNat / 4096, 128 + c.toNat / 64 % 64, 128 + c.toNat % 64]
  else
    [240 + c.toNat / 262144, 128 + c.toNat / 4096 % 64, 128 + c.toNat / 64 % 64,
      128 + c.toNat % 64]

/-- Function `utf8ToBytes` from src/utils/base64url.ts. -/
def utf8Encode (s : String) : List Nat := s.data.flatMap charUtf8

theorem charUtf8_lt_256 (c : Char) : ∀ b ∈ charUtf8 c, b < 256 := by
  have hval : c.toNat < 1114112 := by
    rcases c.valid with h | ⟨_, h⟩
    · exact Nat.lt_trans h (by norm_num)
    · exact h
  intro b hb
  unfold charUtf8 at hb
  split at hb
  · simp at hb; omega
  · split at hb
    · simp at hb; rcases hb with rfl | rfl <;> omega
    · split at hb
      · simp at hb; rcases hb with rfl | rfl | rfl <;> omega
      · simp at hb; rcases hb with rfl | rfl | rfl | rfl <;> omega

theorem utf8Encode_lt_256 (s : String) : ∀ b ∈ utf8Encode s, b < 256 := by
  intro b hb
  rcases List.mem_flatMap.mp hb with ⟨c, _, hc⟩
  exact charUtf8_lt_256 c b hc

/-! ### JSON string serialization (JSON.stringify on string-field
objects, used by the jose helpers) -/

def hexDigit (n : Nat) : Char := "0123456789abcdef".data.getD n '0'

/-- Escaping JSON.stringify applies inside a string literal. -/
def jsonEscapeChar (c : Char) : List Char :=
  if c = '"' then ['\\', '"']
  else if c = '\\' then ['\\', '\\']
  else if c = '\x08' then ['\\', 'b']
  else if c = '\x09' then ['\\', 't']
  else if c = '\x0a' then ['\\', 'n']
  else if c = '\x0c' then ['\\', 'f']
  else if c = '\x0d' then ['\\', 'r']
  else if c.toNat < 32 then
    ['\\', 'u', '0', '0', hexDigit (c.toNat / 16), hexDigit (c.toNat % 16)]
  else [c]

/-- JSON string literal for a JS string value. -/
def jsonQuote (s : String) : String := ⟨'"' :: (s.data.flatMap jsonEscapeChar ++ ['"'])⟩

/-- A runtime JS object with string-valued fields, as an
insertion-ordered field list; this models the arbitrary property order
of the input JWK object. -/
abbrev JsObj : Type := List (String × String)

/-- Property access `o[k]` (empty string stands for a missing field;
the TypeScript type guarantees presence). -/
def jsGet (o : JsObj) (k : String) : String :=
  (((List.find? (fun p => p.1 = k) o)).map (fun p => p.2)).getD ""

/-- Function `canonicalizeJwk` from src/utils/jose.ts: a fresh object
whose insertion order is exactly crv, kty, x, y. -/
def canonicalizeJwk (o : JsObj) : JsObj :=
  [("crv", jsGet o "crv"), ("kty", jsGet o "kty"), ("x", jsGet o "x"), ("y", jsGet o "y")]

/-- Member list of JSON.stringify on a string-field object: members in
insertion order, joined by commas, no whitespace. -/
def jsonMembers : JsObj → String
  | [] => ""
  | [p] => jsonQuote p.1 ++ ":" ++ jsonQuote p.2
  | p :: rest => jsonQuote p.1 ++ ":" ++ jsonQuote p.2 ++ "," ++ jsonMembers rest

/-- JSON.stringify on a string-field object. -/
def jsonStringifyObj (o : JsObj) : String := "\x7b" ++ jsonMembers o ++ "\x7d"

/-! ### JWK thumbprint and DNS-01 TXT value
(src/utils/jose.ts and AcmeClient.computeDns01TxtValue in
src/acme/client.ts); `crypto.subtle.digest("SHA-256", ...)` is the
abstract oracle `sha256`. -/

/-- Function `jwkThumbprintBase64Url` from src/utils/jose.ts. -/
def jwkThumbprintBase64Url (sha256 : List Nat → List Nat) (o : JsObj) : String :=
  base64UrlEncode (sha256 (utf8Encode (jsonStringifyObj (canonicalizeJwk o))))

/-- Method `AcmeClient.computeDns01TxtValue` from src/acme/client.ts. -/
def computeDns01TxtValue (sha256 : List Nat → List Nat) (o : JsObj) (token : String) :
    String :=
  base64UrlEncode (sha256 (utf8Encode
    (token ++ "." ++ jwkThumbprintBase64Url sha256 o)))

/-- The canonical JSON the claim describes, spelled out. -/
def claimedCanonicalJwkJson (o : JsObj) : String :=
  "\x7b\"crv\":" ++ jsonQuote (jsGet o "crv") ++ ",\"kty\":" ++ jsonQuote (jsGet o "kty")
    ++ ",\"x\":" ++ jsonQuote (jsGet o "x") ++ ",\"y\":" ++ jsonQuote (jsGet o "y") ++ "\x7d"

theorem canonicalJwkJson_eq (o : JsObj) :
    jsonStringifyObj (canonicalizeJwk o) = claimedCanonicalJwkJson o := by
  apply String.ext
  simp [jsonStringifyObj, jsonMembers, canonicalizeJwk, claimedCanonicalJwkJson,
    jsonQuote, jsonEscapeChar, String.data_append, List.append_assoc]

/-- C1: for every SHA-256 oracle, JWK object and challenge token,
`computeDns01TxtValue` equals the base64url of the SHA-256 of
`token ++ "." ++ thumbprint`, where the thumbprint is the base64url
SHA-256 of the JSON serialization holding exactly the members crv,
kty, x, y in that order with no whitespace; and the result depends
only on the values of those four fields, never on the field order of
the input JWK object. -/
theorem c1_computeDns01TxtValue_spec (sha256 : List Nat → List Nat) (o : JsObj)
    (token : String) :
    computeDns01TxtValue sha256 o token
      = base64UrlEncode (sha256 (utf8Encode (token ++ "." ++
          base64UrlEncode (sha256 (utf8Encode (claimedCanonicalJwkJson o)))))) ∧
    (∀ o' : JsObj, jsGet o' "crv" = jsGet o "crv" → jsGet o' "kty" = jsGet o "kty" →
      jsGet o' "x" = jsGet o "x" → jsGet o' "y" = jsGet o "y" →
      computeDns01TxtValue sha256 o' token = computeDns01TxtValue sha256 o token) := by
  constructor
  · unfold computeDns01TxtValue jwkThumbprintBase64Url
    rw [canonicalJwkJson_eq]
  · intro o' h1 h2 h3 h4
    unfold computeDns01TxtValue jwkThumbprintBase64Url canonicalizeJwk
    rw [h1, h2, h3, h4]

/-- Witness for C1 at a concrete oracle, JWK (in two field orders) and
token. -/
theorem c1_computeDns01TxtValue_spec_witness :
    computeDns01TxtValue (fun _ => [0, 1])
        [("y", "Ag"), ("x", "AQ"), ("kty", "EC"), ("crv", "P-256")] "tok"
      = computeDns01TxtValue (fun _ => [0, 1])
        [("kty", "EC"), ("crv", "P-256"), ("x", "AQ"), ("y", "Ag")] "tok" :=
  (c1_computeDns01TxtValue_spec (fun _ => [0, 1])
      [("kty", "EC"), ("crv", "P-256"), ("x", "AQ"), ("y", "Ag")] "tok").2
    [("y", "Ag"), ("x", "AQ"), ("kty", "EC"), ("crv", "P-256")]
    (by decide) (by decide) (by decide) (by decide)

/-! ### DER ECDSA signature to JOSE form (src/utils/jose.ts)

The 32-bit signed wrap of the JS `(len << 8) | b` accumulator is not
modelled; it only diverges for declared DER lengths of 2 GiB or more,
which no ECDSA signature reaches. -/

/-- Helper `leftPad` from src/utils/jose.ts: keep, truncate to the
last `n` bytes, or left-pad with zeros to exactly `n` bytes. -/
def leftPad (bytes : List Nat) (n : Nat) : List Nat :=
  if bytes.length = n then bytes
  else if bytes.length > n then bytes.drop (bytes.length - n)
  else List.replicate (n - bytes.length) 0 ++ bytes

/-- Accumulator loop of `readDerLength` over `numBytes` length bytes. -/
def derLenAcc (bytes : List Nat) (offset : Nat) : Nat → Nat → Nat
  | 0, len => len
  | i + 1, len => derLenAcc bytes (offset + 1) i (len * 256 + bytes.getD offset 0)

/-- Helper `readDerLength` from src/utils/jose.ts. -/
def readDerLength (bytes : List Nat) (offset : Nat) : Option (Nat × Nat) :=
  match bytes.get? offset with
  | none => none
  | some first =>
    if first < 128 then some (first, offset + 1)
    else
      let numBytes := first - 128
      if numBytes = 0 ∨ numBytes > 4 then none
      else some (derLenAcc bytes (offset + 1) numBytes 0, offset + 1 + numBytes)

/-- Helper `readDerInteger` from src/utils/jose.ts: tag 0x02, length,
value with leading 0x00 bytes stripped. -/
def readDerInteger (bytes : List Nat) (offset : Nat) : Option (List Nat × Nat) :=
  match bytes.get? offset with
  | none => none
  | some tag =>
    if tag = 2 then
      match readDerLength bytes (offset + 1) with
      | none => none
      | some (len, off2) =>
        some (((bytes.drop off2).take len).dropWhile (· = 0), off2 + len)
    else none

/-- Function `derEcdsaSigToJose` from src/utils/jose.ts. The source
computes `seqEnd` but deliberately tolerates a mismatch (the check is
commented out), so `seqEnd` does not constrain the result. -/
def derEcdsaSigToJose (bytes : List Nat) (keySizeBytes : Nat) : Option (List Nat) :=
  (bytes.get? 0).bind fun tag =>
    if tag = 48 then
      (readDerLength bytes 1).bind fun seqLenOff =>
        (readDerInteger bytes seqLenOff.2).bind fun rPair =>
          (readDerInteger bytes rPair.2).bind fun sPair =>
            some (leftPad rPair.1 keySizeBytes ++ leftPad sPair.1 keySizeBytes)
    else none

theorem length_leftPad (l : List Nat) (n : Nat) : (leftPad l n).length = n := by
  unfold leftPad
  split
  · assumption
  · split
    · simp only [List.length_drop]; omega
    · simp only [List.length_append, List.length_replicate]; omega

theorem leftPad_lt_256 (l : List Nat) (n : Nat) (h : ∀ b ∈ l, b < 256) :
    ∀ b ∈ leftPad l n, b < 256 := by
  intro b hb
  unfold leftPad at hb
  split at hb
  · exact h b hb
  · split at hb
    · exact h b ((List.drop_sublist _ _).subset hb)
    · rcases List.mem_append.mp hb with hb | hb
      · have := List.eq_of_mem_replicate hb
        omega
      · exact h b hb

theorem readDerInteger_subset (bytes : List Nat) (offset : Nat) (v : List Nat)
    (next : Nat) (h : readDerInteger bytes offset = some (v, next)) :
    ∀ b ∈ v, b ∈ bytes := by
  intro b hb
  unfold readDerInteger at h
  split at h
  · cases h
  · split at h
    · split at h
      · cases h
      · simp only [Option.some.injEq, Prod.mk.injEq] at h
        rw [← h.1] at hb
        exact (List.drop_sublist _ _).subset
          ((List.take_sublist _ _).subset ((List.dropWhile_sublist _).subset hb))
    · cases h

theorem leftPad_of_gt (l : List Nat) (n : Nat) (h : l.length > n) :
    leftPad l n = l.drop (l.length - n) := by
  unfold leftPad
  rw [if_neg (by omega), if_pos h]

/-- C10: every input whose head parses as a DER SEQUENCE of two
INTEGERs yields a 64-byte JOSE array from `derEcdsaSigToJose _ 32`,
even when a stripped INTEGER still exceeds 32 bytes: the oversized
integer is silently truncated to its last 32 bytes, never rejected. -/
theorem c10_derEcdsaSigToJose_truncates (bytes : List Nat) (seqLen off : Nat)
    (r : List Nat) (offR : Nat) (s : List Nat) (offS : Nat)
    (h0 : bytes.get? 0 = some 48)
    (h1 : readDerLength bytes 1 = some (seqLen, off))
    (h2 : readDerInteger bytes off = some (r, offR))
    (h3 : readDerInteger bytes offR = some (s, offS)) :
    derEcdsaSigToJose bytes 32 = some (leftPad r 32 ++ leftPad s 32) ∧
    (leftPad r 32 ++ leftPad s 32).length = 64 ∧
    (r.length > 32 → leftPad r 32 = r.drop (r.length - 32)) ∧
    (s.length > 32 → leftPad s 32 = s.drop (s.length - 32)) := by
  refine ⟨?_, ?_, fun hr => leftPad_of_gt r 32 hr, fun hs => leftPad_of_gt s 32 hs⟩
  · have h0' : bytes[0]? = some 48 := by rw [← List.get?_eq_getElem?]; exact h0
    unfold derEcdsaSigToJose
    simp [h0', h1, h2, h3]
  · simp only [List.length_append, length_leftPad]

/-- Witness for C10: a SEQUENCE holding a 33-byte INTEGER (leading
byte nonzero) and the INTEGER 5; the 33-byte value is truncated to its
last 32 bytes. -/
theorem c10_derEcdsaSigToJose_truncates_witness :
    derEcdsaSigToJose ([48, 38, 2, 33] ++ List.replicate 33 7 ++ [2, 1, 5]) 32
        = some (leftPad (List.replicate 33 7) 32 ++ leftPad [5] 32) ∧
      (leftPad (List.replicate 33 7) 32 ++ leftPad [5] 32).length = 64 ∧
      leftPad (List.replicate 33 7) 32
        = (List.replicate 33 7).drop ((List.replicate 33 7).length - 32) := by
  have h := c10_derEcdsaSigToJose_truncates
    ([48, 38, 2, 33] ++ List.replicate 33 7 ++ [2, 1, 5]) 38 2
    (List.replicate 33 7) 37 [5] 40
    (by decide) (by decide) (by decide) (by decide)
  exact ⟨h.1, h.2.1, h.2.2.1 (by decide)⟩

/-! ### JWS ES256 production (src/utils/webcrypto.ts)

`crypto.subtle.sign` is the abstract oracle `sign`, returning the DER
signature bytes for a signing input. The protected header reaches the
function as its `JSON.stringify` image, and the payload as the string
actually encoded (the raw string, or the JSON serialization of the
object). -/

structure JwsFlat where
  prot : String
  payload : String
  signature : String

/-- Function `signEs256Jws` from src/utils/webcrypto.ts; `none` models
the exception thrown when the DER-to-JOSE conversion fails. -/
def signEs256Jws (sign : List Nat → List Nat) (protectedJson : String)
    (payloadText : String) : Option JwsFlat :=
  let protectedB64 := base64UrlEncode (utf8Encode protectedJson)
  let payloadB64 := base64UrlEncode (utf8Encode payloadText)
  let signingInput := utf8Encode (protectedB64 ++ "." ++ payloadB64)
  let derSig := sign signingInput
  match derEcdsaSigToJose derSig 32 with
  | none => none
  | some joseSigBytes => some ⟨protectedB64, payloadB64, base64UrlEncode joseSigBytes⟩

theorem derEcdsaSigToJose_shape (bytes : List Nat) (k : Nat) (out : List Nat)
    (h : derEcdsaSigToJose bytes k = some out) :
    ∃ r s, out = leftPad r k ++ leftPad s k ∧
      (∀ b ∈ r, b ∈ bytes) ∧ (∀ b ∈ s, b ∈ bytes) := by
  unfold derEcdsaSigToJose at h
  simp only [Option.bind_eq_some] at h
  rcases h with ⟨tag, htag, h⟩
  split at h
  · simp only [Option.bind_eq_some, Option.some.injEq] at h
    rcases h with ⟨⟨seqLen, off⟩, hl, ⟨r, offR⟩, hr, ⟨s, offS⟩, hs, hout⟩
    exact ⟨r, s, hout.symm, readDerInteger_subset _ _ _ _ hr,
      readDerInteger_subset _ _ _ _ hs⟩
  · cases h

/-- C6: whenever `signEs256Jws` produces a JWS (the signing oracle
returned bytes whose DER structure parses), the signature field
decoded from base64url is exactly the 64-byte concatenation of the
two 32-byte left-padded integers. -/
theorem c6_signEs256Jws_signature_length (sign : List Nat → List Nat)
    (protectedJson payloadText : String) (jws : JwsFlat)
    (hbytes : ∀ b ∈ sign (utf8Encode (base64UrlEncode (utf8Encode protectedJson)
        ++ "." ++ base64UrlEncode (utf8Encode payloadText))), b < 256)
    (hok : signEs256Jws sign protectedJson payloadText = some jws) :
    ∃ raw, base64UrlDecodeToBytes jws.signature = some raw ∧ raw.length = 64 := by
  simp only [signEs256Jws] at hok
  split at hok
  · cases hok
  · rename_i joseSigBytes hjose
    rcases derEcdsaSigToJose_shape _ _ _ hjose with ⟨r, s, rfl, hrmem, hsmem⟩
    cases hok
    refine ⟨leftPad r 32 ++ leftPad s 32, ?_, ?_⟩
    · show base64UrlDecodeToBytes (base64UrlEncode (leftPad r 32 ++ leftPad s 32)) = _
      refine base64UrlDecode_base64UrlEncode _ ?_
      intro b hb
      rcases List.mem_append.mp hb with hb | hb
      · exact leftPad_lt_256 r 32 (fun x hx => hbytes x (hrmem x hx)) b hb
      · exact leftPad_lt_256 s 32 (fun x hx => hbytes x (hsmem x hx)) b hb
    · simp only [List.length_append, length_leftPad]

/-- Witness for C6 at a concrete signing oracle returning the DER
SEQUENCE of INTEGER 1 and INTEGER 2. -/
theorem c6_signEs256Jws_signature_length_witness :
    ∃ jws raw, signEs256Jws (fun _ => [48, 6, 2, 1, 1, 2, 1, 2]) "" "" = some jws ∧
      base64UrlDecodeToBytes jws.signature = some raw ∧ raw.length = 64 := by
  have hok : signEs256Jws (fun _ => [48, 6, 2, 1, 1, 2, 1, 2]) "" ""
      = some ⟨"", "", base64UrlEncode (leftPad [1] 32 ++ leftPad [2] 32)⟩ := rfl
  rcases c6_signEs256Jws_signature_length (fun _ => [48, 6, 2, 1, 1, 2, 1, 2]) "" ""
      ⟨"", "", base64UrlEncode (leftPad [1] 32 ++ leftPad [2] 32)⟩
      (by decide) hok with ⟨raw, hdec, hlen⟩
  exact ⟨_, raw, hok, hdec, hlen⟩

/-! ### PEM and DER conversion (src/utils/pem.ts)

`pemToDer` removes CR, splits on LF, drops lines starting with
`-----`, joins and `atob`s; `derToPem` is `btoa` wrapped at 64
characters per line between BEGIN/END lines. The regex `.` of
`/.\x7b1,64\x7d/g` excludes LF, which `btoa` output never holds. -/

/-- Splitting on the newline character, as `String.prototype.split`. -/
def splitNL : List Char → List (List Char)
  | [] => [[]]
  | c :: rest =>
    if c = '\n' then [] :: splitNL rest
    else
      match splitNL rest with
      | [] => [[c]]
      | h :: t => (c :: h) :: t

/-- Joining with a newline, as `Array.prototype.join("\n")`. -/
def joinNL : List (List Char) → List Char
  | [] => []
  | [l] => l
  | l :: rest => l ++ '\n' :: joinNL rest

def startsWithDashes (l : List Char) : Bool := "-----".data.isPrefixOf l

def beginLine (label : String) : List Char :=
  ("-----BEGIN " ++ label ++ "-----").data

def endLine (label : String) : List Char :=
  ("-----END " ++ label ++ "-----").data

/-- Function `pemToDer` from src/utils/pem.ts. -/
def pemToDer (pem : String) : Option (List Nat) :=
  atobBytes (((splitNL (pem.data.filter (fun c => c ≠ '\x0d'))).filter
    (fun l => !startsWithDashes l)).flatten)

/-- Greedy 64-character chunking, as `base64.match(/.\x7b1,64\x7d/g) ?? []`. -/
def chunk64 (l : List Char) : List (List Char) :=
  if h : l = [] then []
  else l.take 64 :: chunk64 (l.drop 64)
termination_by l.length
decreasing_by
  simp only [List.length_drop]
  have hlen : l.length ≠ 0 := fun hc => h (List.eq_nil_of_length_eq_zero hc)
  omega

/-- Function `derToPem` from src/utils/pem.ts. -/
def derToPem (der : List Nat) (label : String) : String :=
  ⟨beginLine label ++ '\n' :: (joinNL (chunk64 (base64Encode der)) ++
    '\n' :: (endLine label ++ ['\n']))⟩

theorem splitNL_append (a b : List Char) (ha : '\n' ∉ a) :
    splitNL (a ++ '\n' :: b) = a :: splitNL b := by
  induction a with
  | nil => simp [splitNL]
  | cons c t ih =>
    have hc : c ≠ '\n' := fun h => ha (h ▸ List.mem_cons_self c t)
    have ht : '\n' ∉ t := fun h => ha (List.mem_cons_of_mem c h)
    show splitNL (c :: (t ++ '\n' :: b)) = (c :: t) :: splitNL b
    simp only [splitNL, if_neg hc, ih ht]

theorem splitNL_joinNL :
    ∀ (chunks : List (List Char)) (tail : List Char), chunks ≠ [] →
      (∀ l ∈ chunks, '\n' ∉ l) →
      splitNL (joinNL chunks ++ '\n' :: tail) = chunks ++ splitNL tail
  | [], _, hne, _ => absurd rfl hne
  | [c], tail, _, h => by
    show splitNL (c ++ '\n' :: tail) = c :: splitNL tail
    exact splitNL_append c tail (h c (by simp))
  | c :: c2 :: rest, tail, _, h => by
    have ih := splitNL_joinNL (c2 :: rest) tail (by simp)
      (fun l hl => h l (by simp [List.mem_cons] at hl ⊢; tauto))
    show splitNL ((c ++ '\n' :: joinNL (c2 :: rest)) ++ '\n' :: tail) = _
    rw [List.append_assoc, List.cons_append]
    rw [splitNL_append c _ (h c (by simp)), ih]
    rfl

theorem flatten_chunk64 (l : List Char) : (chunk64 l).flatten = l := by
  rw [chunk64]
  split
  · simp [*]
  · rw [List.flatten_cons, flatten_chunk64 (l.drop 64), List.take_append_drop]
termination_by l.length
decreasing_by
  simp only [List.length_drop]
  rename_i h
  have hlen : l.length ≠ 0 := fun hc => h (List.eq_nil_of_length_eq_zero hc)
  omega

theorem mem_of_mem_chunk64 (l : List Char) (c : List Char) (hc : c ∈ chunk64 l) :
    ∀ x ∈ c, x ∈ l := by
  intro x hx
  have : x ∈ (chunk64 l).flatten := List.mem_flatten.mpr ⟨c, hc, hx⟩
  rwa [flatten_chunk64] at this

theorem ne_nil_of_mem_chunk64 (l : List Char) (c : List Char) (hc : c ∈ chunk64 l) :
    c ≠ [] := by
  rw [chunk64] at hc
  split at hc
  · cases hc
  · rcases List.mem_cons.mp hc with rfl | hc
    · rename_i h
      match l, h with
      | x :: t, _ => simp
    · exact ne_nil_of_mem_chunk64 (l.drop 64) c hc
termination_by l.length
decreasing_by
  have hne : l ≠ [] := by assumption
  simp only [List.length_drop]
  have hlen : l.length ≠ 0 := fun hc0 => hne (List.eq_nil_of_length_eq_zero hc0)
  omega

theorem chunk64_ne_nil (l : List Char) (h : l ≠ []) : chunk64 l ≠ [] := by
  rw [chunk64, dif_neg h]
  simp

theorem mem_base64Encode :
    ∀ l : List Nat, (∀ b ∈ l, b < 256) →
      ∀ x ∈ base64Encode l, (∃ n, n < 64 ∧ x = b64c n) ∨ x = '='
  | [], _, x, hx => by simp [base64Encode] at hx
  | [a], h, x, hx => by
    have ha : a < 256 := h a (by simp)
    simp only [base64Encode, List.mem_cons, List.not_mem_nil, or_false] at hx
    rcases hx with rfl | rfl | rfl | rfl
    · exact Or.inl ⟨a / 4, by omega, rfl⟩
    · exact Or.inl ⟨a % 4 * 16, by omega, rfl⟩
    · exact Or.inr rfl
    · exact Or.inr rfl
  | [a, b], h, x, hx => by
    have ha : a < 256 := h a (by simp)
    have hb : b < 256 := h b (by simp)
    simp only [base64Encode, List.mem_cons, List.not_mem_nil, or_false] at hx
    rcases hx with rfl | rfl | rfl | rfl
    · exact Or.inl ⟨a / 4, by omega, rfl⟩
    · exact Or.inl ⟨a % 4 * 16 + b / 16, by omega, rfl⟩
    · exact Or.inl ⟨b % 16 * 4, by omega, rfl⟩
    · exact Or.inr rfl
  | a :: b :: c :: rest, h, x, hx => by
    have ha : a < 256 := h a (by simp)
    have hb : b < 256 := h b (by simp)
    have hc : c < 256 := h c (by simp)
    have hmem : x ∈ (b64c (a / 4) :: b64c (a % 4 * 16 + b / 16) ::
        b64c (b % 16 * 4 + c / 64) :: b64c (c % 64) :: base64Encode rest) := hx
    simp only [List.mem_cons] at hmem
    rcases hmem with rfl | rfl | rfl | rfl | hmem
    · exact Or.inl ⟨a / 4, by omega, rfl⟩
    · exact Or.inl ⟨a % 4 * 16 + b / 16, by omega, rfl⟩
    · exact Or.inl ⟨b % 16 * 4 + c / 64, by omega, rfl⟩
    · exact Or.inl ⟨c % 64, by omega, rfl⟩
    · exact mem_base64Encode rest (fun y hy => h y (by simp [hy])) x hmem

theorem b64c_notin_specials :
    ∀ n, n < 64 → b64c n ≠ '\n' ∧ b64c n ≠ '\x0d' ∧ b64c n ≠ '-' := by
  decide

theorem startsWithDashes_cons_false (x : Char) (t : List Char) (hx : x ≠ '-') :
    startsWithDashes (x :: t) = false := by
  show (('-' :: '-' :: '-' :: '-' :: '-' :: []).isPrefixOf (x :: t)) = false
  simp only [List.isPrefixOf, Bool.and_eq_false_imp, beq_iff_eq]
  intro h
  exact absurd h.symm hx

theorem mem_joinNL :
    ∀ (chunks : List (List Char)) (x : Char), x ∈ joinNL chunks →
      x = '\n' ∨ ∃ l ∈ chunks, x ∈ l
  | [], x, hx => by simp [joinNL] at hx
  | [l], x, hx => by
    right
    exact ⟨l, by simp, hx⟩
  | l :: l2 :: rest, x, hx => by
    rcases List.mem_append.mp hx with hx | hx
    · exact Or.inr ⟨l, by simp, hx⟩
    · rcases List.mem_cons.mp hx with rfl | hx
      · exact Or.inl rfl
      · rcases mem_joinNL (l2 :: rest) x hx with h | ⟨m, hm, hxm⟩
        · exact Or.inl h
        · exact Or.inr ⟨m, by simp [List.mem_cons] at hm ⊢; tauto, hxm⟩

/-- Characters appearing in a base64 encoding are never LF, CR or a
dash. -/
theorem base64Encode_char_facts (l : List Nat) (h : ∀ b ∈ l, b < 256) :
    ∀ x ∈ base64Encode l, x ≠ '\n' ∧ x ≠ '\x0d' ∧ x ≠ '-' := by
  intro x hx
  rcases mem_base64Encode l h x hx with ⟨n, hn, rfl⟩ | rfl
  · exact b64c_notin_specials n hn
  · refine ⟨by decide, by decide, by decide⟩

theorem beginFrag_facts : ∀ ch ∈ "-----BEGIN ".data, ch ≠ '\n' ∧ ch ≠ '\x0d' := by
  decide

theorem endFrag_facts : ∀ ch ∈ "-----END ".data, ch ≠ '\n' ∧ ch ≠ '\x0d' := by
  decide

theorem dashFrag_facts : ∀ ch ∈ "-----".data, ch ≠ '\n' ∧ ch ≠ '\x0d' := by
  decide

/-- Round trip for the repository's PEM pair on canonically produced
blocks: decoding a `derToPem` output recovers the DER bytes. -/
theorem pemToDer_derToPem (d : List Nat) (label : String)
    (hd : ∀ b ∈ d, b < 256)
    (hlabel : ∀ ch ∈ label.data, ch ≠ '\n' ∧ ch ≠ '\x0d') :
    pemToDer (derToPem d label) = some d := by
  have hBfacts : ∀ ch ∈ beginLine label, ch ≠ '\n' ∧ ch ≠ '\x0d' := by
    intro ch hch
    have hm : ch ∈ "-----BEGIN ".data ++ (label.data ++ "-----".data) := hch
    rcases List.mem_append.mp hm with hch2 | hch2
    · exact beginFrag_facts ch hch2
    · rcases List.mem_append.mp hch2 with hch3 | hch3
      · exact hlabel ch hch3
      · exact dashFrag_facts ch hch3
  have hEfacts : ∀ ch ∈ endLine label, ch ≠ '\n' ∧ ch ≠ '\x0d' := by
    intro ch hch
    have hm : ch ∈ "-----END ".data ++ (label.data ++ "-----".data) := hch
    rcases List.mem_append.mp hm with hch2 | hch2
    · exact endFrag_facts ch hch2
    · rcases List.mem_append.mp hch2 with hch3 | hch3
      · exact hlabel ch hch3
      · exact dashFrag_facts ch hch3
  have hchunkfacts : ∀ c ∈ chunk64 (base64Encode d), ∀ x ∈ c,
      x ≠ '\n' ∧ x ≠ '\x0d' ∧ x ≠ '-' := by
    intro c hc x hx
    exact base64Encode_char_facts d hd x (mem_of_mem_chunk64 _ _ hc x hx)
  have hjoinfacts : ∀ x ∈ joinNL (chunk64 (base64Encode d)), x ≠ '\x0d' := by
    intro x hx
    rcases mem_joinNL _ x hx with rfl | ⟨m, hm, hxm⟩
    · decide
    · exact (hchunkfacts m hm x hxm).2.1
  have hdata : (derToPem d label).data = beginLine label ++ '\n' ::
      (joinNL (chunk64 (base64Encode d)) ++ '\n' :: (endLine label ++ ['\n'])) := rfl
  have hnocr : ∀ ch ∈ (derToPem d label).data, (ch ≠ '\x0d') = True := by
    intro ch hch
    simp only [eq_iff_iff, iff_true]
    rw [hdata] at hch
    rcases List.mem_append.mp hch with hch | hch
    · exact (hBfacts ch hch).2
    · rcases List.mem_cons.mp hch with rfl | hch
      · decide
      · rcases List.mem_append.mp hch with hch | hch
        · exact hjoinfacts ch hch
        · rcases List.mem_cons.mp hch with rfl | hch
          · decide
          · rcases List.mem_append.mp hch with hch | hch
            · exact (hEfacts ch hch).2
            · simp only [List.mem_singleton] at hch
              subst hch
              decide
  have hfiltercr : (derToPem d label).data.filter (fun c => c ≠ '\x0d')
      = (derToPem d label).data := by
    refine List.filter_eq_self.mpr ?_
    intro a ha
    exact decide_eq_true ((hnocr a ha).mpr trivial)
  have hBstart : startsWithDashes (beginLine label) = true := rfl
  have hEstart : startsWithDashes (endLine label) = true := rfl
  have hchunkstart : ∀ c ∈ chunk64 (base64Encode d), startsWithDashes c = false := by
    intro c hc
    match c, ne_nil_of_mem_chunk64 _ _ hc with
    | x :: t, _ =>
      exact startsWithDashes_cons_false x t (hchunkfacts _ hc x (by simp)).2.2
  unfold pemToDer
  rw [hfiltercr, hdata]
  rw [splitNL_append _ _ (fun hmem => (hBfacts '\n' hmem).1 rfl)]
  by_cases hdnil : base64Encode d = []
  · have hd0 : d = [] := by
      rcases d with _ | ⟨a, t⟩
      · rfl
      · exact absurd hdnil (base64Encode_ne_nil _ (by simp))
    subst hd0
    rw [show chunk64 (base64Encode []) = [] from by rw [chunk64]; simp [base64Encode]]
    show atobBytes ((List.filter (fun l => !startsWithDashes l)
        (beginLine label :: [] :: splitNL (endLine label ++ '\n' :: []))).flatten) = some []
    rw [splitNL_append _ _ (fun hmem => (hEfacts '\n' hmem).1 rfl)]
    rw [List.filter_cons_of_neg (by simp [hBstart]),
      List.filter_cons_of_pos (by simp [startsWithDashes]),
      List.filter_cons_of_neg (by simp [hEstart])]
    rfl
  · have hchne : chunk64 (base64Encode d) ≠ [] := chunk64_ne_nil _ hdnil
    rw [show ('\n' :: (endLine label ++ ['\n'])) = '\n' :: (endLine label ++ '\n' :: []) from rfl]
    rw [splitNL_joinNL _ _ hchne (fun l hl hmem => (hchunkfacts l hl '\n' hmem).1 rfl)]
    rw [splitNL_append _ _ (fun hmem => (hEfacts '\n' hmem).1 rfl)]
    rw [List.filter_cons_of_neg (by simp [hBstart])]
    rw [List.filter_append]
    rw [List.filter_eq_self.mpr (fun c hc => by simp [hchunkstart c hc])]
    rw [show splitNL [] = [[]] from rfl]
    rw [List.filter_cons_of_neg (by simp [hEstart]),
      List.filter_cons_of_pos (by simp [startsWithDashes])]
    simp only [List.filter_nil, List.flatten_append, List.flatten_cons, List.flatten_nil,
      List.append_nil, List.nil_append]
    rw [flatten_chunk64]
    exact atobBytes_base64Encode d hd

theorem chunk64_nil : chunk64 [] = [] := by
  rw [chunk64]
  simp

theorem chunk64_short (l : List Char) (h1 : l ≠ []) (h2 : l.length ≤ 64) :
    chunk64 l = [l] := by
  rw [chunk64, dif_neg h1, List.take_of_length_le h2, List.drop_eq_nil_of_le h2,
    chunk64_nil]

/-- Modelled from the claim's words: `p` is a single PEM block with
the given label — a BEGIN line, nonempty non-dashed base64-decodable
body lines, an END line, and a trailing newline. -/
def isPemSingleBlock (label : String) (p : String) : Prop :=
  ∃ body : List (List Char),
    body ≠ [] ∧
    (∀ l ∈ body, l ≠ [] ∧ startsWithDashes l = false ∧ '\n' ∉ l ∧ '\x0d' ∉ l) ∧
    (atobBytes body.flatten).isSome = true ∧
    p.data = beginLine label ++ '\n' :: (joinNL body ++ '\n' :: (endLine label ++ ['\n']))

/-- Counterexample to C8 as stated: a well-formed single block whose
base64 body is wrapped at 4 characters per line; `derToPem` re-wraps
at 64, so the round trip does not reproduce `p`. -/
theorem c8_pem_roundtrip_counterexample :
    isPemSingleBlock "X" "-----BEGIN X-----\nQUJD\nRA==\n-----END X-----\n" ∧
    (pemToDer "-----BEGIN X-----\nQUJD\nRA==\n-----END X-----\n").map
        (fun d2 => derToPem d2 "X")
      ≠ some "-----BEGIN X-----\nQUJD\nRA==\n-----END X-----\n" := by
  constructor
  · exact ⟨["QUJD".data, "RA==".data], by decide, by decide, by decide, by decide⟩
  · have h1 : pemToDer "-----BEGIN X-----\nQUJD\nRA==\n-----END X-----\n"
        = some [65, 66, 67, 68] := by decide
    have h2 : derToPem [65, 66, 67, 68] "X"
        = "-----BEGIN X-----\nQUJDRA==\n-----END X-----\n" := by
      unfold derToPem
      rw [chunk64_short _ (by decide) (by decide)]
      decide
    rw [h1, Option.map_some', h2]
    intro hcontra
    have := Option.some.inj hcontra
    exact absurd this (by decide)

/-- C8 (amended): the round trip holds exactly for canonically
produced blocks: `pemToDer` recovers the DER bytes of any `derToPem`
output (for a label free of CR and LF), hence
`derToPem (pemToDer p) label = p` for every `p` in the image of
`derToPem` — but not for every single matching block, as blocks
wrapped at a width other than 64 are re-wrapped. -/
theorem c8_pem_roundtrip (d : List Nat) (label : String)
    (hd : ∀ b ∈ d, b < 256)
    (hlabel : ∀ ch ∈ label.data, ch ≠ '\n' ∧ ch ≠ '\x0d') :
    pemToDer (derToPem d label) = some d ∧
    (pemToDer (derToPem d label)).map (fun d2 => derToPem d2 label)
      = some (derToPem d label) := by
  have h1 := pemToDer_derToPem d label hd hlabel
  refine ⟨h1, ?_⟩
  rw [h1, Option.map_some']

/-- Witness for C8 (amended) at concrete DER bytes and label. -/
theorem c8_pem_roundtrip_witness :
    pemToDer (derToPem [0, 255, 16] "CERTIFICATE") = some [0, 255, 16] :=
  (c8_pem_roundtrip [0, 255, 16] "CERTIFICATE" (by decide) (by decide)).1

/-! ### Authorization and order polling (src/acme/client.ts)

Model of the current client's `pollAuthorizationValid` and
`pollOrderValid` (the variant with backoff and an attempt cap; an
older variant without the cap also appears in the sources). `status i`
is the status observed by the i-th poll, `elapsed i` is
`Date.now() - start` at the i-th timeout check; sleeping affects only
real time, which `elapsed` embodies. The code's
`attempts++ >= maxAttempts` check with `attempts = i` is represented
by `remaining = maxAttempts - i` reaching zero. -/

inductive PollStatus
  | valid
  | invalid
  | other
deriving DecidableEq

inductive PollResult
  | ok
  | invalidErr
  | timeoutErr
  | exceededErr
deriving DecidableEq

/-- Next delay `Math.min(Math.floor(delayMs * 1.7), 10_000)`. For
every delay the loop reaches (2000, 3400, 5780, 9826, 10000) the
double-precision product rounds to the exact value, so the rational
floor coincides with the JS float computation. -/
def nextDelay (d : Nat) : Nat := min (d * 17 / 10) 10000

/-- Delay before the (k+1)-st poll. -/
def delaySeq : Nat → Nat
  | 0 => 2000
  | n + 1 => nextDelay (delaySeq n)

def delayIter (d : Nat) : Nat → Nat
  | 0 => d
  | k + 1 => delayIter (nextDelay d) k

/-- The shared polling loop. Returns the result, the number of polls
made, and the list of sleeps performed. -/
def pollLoop (status : Nat → PollStatus) (elapsed : Nat → Nat) (timeoutMs : Nat) :
    Nat → Nat → Nat → PollResult × Nat × List Nat
  | remaining, i, delayMs =>
    match status i with
    | .valid => (.ok, i + 1, [])
    | .invalid => (.invalidErr, i + 1, [])
    | .other =>
      if elapsed i > timeoutMs then (.timeoutErr, i + 1, [])
      else
        match remaining with
        | 0 => (.exceededErr, i + 1, [])
        | r + 1 =>
          let res := pollLoop status elapsed timeoutMs r (i + 1) (nextDelay delayMs)
          (res.1, res.2.1, delayMs :: res.2.2)

/-- Method `AcmeClient.pollAuthorizationValid` (timeout 120 s, max
attempts 12, initial delay 2 s). -/
def pollAuthorizationValid (status : Nat → PollStatus) (elapsed : Nat → Nat) :
    PollResult × Nat × List Nat :=
  pollLoop status elapsed 120000 12 0 2000

/-- Method `AcmeClient.pollOrderValid` (timeout 180 s, max attempts
12, initial delay 2 s). -/
def pollOrderValid (status : Nat → PollStatus) (elapsed : Nat → Nat) :
    PollResult × Nat × List Nat :=
  pollLoop status elapsed 180000 12 0 2000

/-- Invariant of one run of the polling loop. -/
def PollSpecHolds (status : Nat → PollStatus) (elapsed : Nat → Nat)
    (timeoutMs i remaining delayMs : Nat) (res : PollResult × Nat × List Nat) : Prop :=
  i + 1 ≤ res.2.1 ∧ res.2.1 ≤ i + remaining + 1 ∧
  (res.1 = .ok → status (res.2.1 - 1) = .valid) ∧
  (res.1 = .invalidErr → status (res.2.1 - 1) = .invalid) ∧
  (res.1 = .timeoutErr → elapsed (res.2.1 - 1) > timeoutMs) ∧
  (res.1 = .exceededErr → res.2.1 = i + remaining + 1) ∧
  (∀ j, i ≤ j → j < res.2.1 - 1 → status j = .other ∧ ¬ elapsed j > timeoutMs) ∧
  res.2.2 = (List.range (res.2.1 - 1 - i)).map (delayIter delayMs)

theorem pollLoop_spec (status : Nat → PollStatus) (elapsed : Nat → Nat)
    (timeoutMs : Nat) :
    ∀ remaining i delayMs,
      PollSpecHolds status elapsed timeoutMs i remaining delayMs
        (pollLoop status elapsed timeoutMs remaining i delayMs) := by
  intro remaining
  induction remaining with
  | zero =>
    intro i delayMs
    cases hst : status i with
    | valid =>
      have heq : pollLoop status elapsed timeoutMs 0 i delayMs = (.ok, i + 1, []) := by
        simp [pollLoop, hst]
      rw [heq]
      unfold PollSpecHolds
      refine ⟨by simp, by simp, fun _ => by simpa using hst, by simp, by simp,
        by simp, fun j h1 h2 => by simp at h2; omega, by simp⟩
    | invalid =>
      have heq : pollLoop status elapsed timeoutMs 0 i delayMs
          = (.invalidErr, i + 1, []) := by
        simp [pollLoop, hst]
      rw [heq]
      unfold PollSpecHolds
      refine ⟨by simp, by simp, by simp, fun _ => by simpa using hst, by simp,
        by simp, fun j h1 h2 => by simp at h2; omega, by simp⟩
    | other =>
      by_cases hel : elapsed i > timeoutMs
      · have heq : pollLoop status elapsed timeoutMs 0 i delayMs
            = (.timeoutErr, i + 1, []) := by
          simp [pollLoop, hst, hel]
        rw [heq]
        unfold PollSpecHolds
        refine ⟨by simp, by simp, by simp, by simp, fun _ => by simpa using hel,
          by simp, fun j h1 h2 => by simp at h2; omega, by simp⟩
      · have heq : pollLoop status elapsed timeoutMs 0 i delayMs
            = (.exceededErr, i + 1, []) := by
          simp [pollLoop, hst, hel]
        rw [heq]
        unfold PollSpecHolds
        refine ⟨by simp, by simp, by simp, by simp, by simp,
          fun _ => by simp, fun j h1 h2 => by simp at h2; omega, by simp⟩
  | succ r ih =>
    intro i delayMs
    cases hst : status i with
    | valid =>
      have heq : pollLoop status elapsed timeoutMs (r + 1) i delayMs
          = (.ok, i + 1, []) := by
        simp [pollLoop, hst]
      rw [heq]
      unfold PollSpecHolds
      refine ⟨by simp, by simp, fun _ => by simpa using hst, by simp, by simp,
        by simp, fun j h1 h2 => by simp at h2; omega, by simp⟩
    | invalid =>
      have heq : pollLoop status elapsed timeoutMs (r + 1) i delayMs
          = (.invalidErr, i + 1, []) := by
        simp [pollLoop, hst]
      rw [heq]
      unfold PollSpecHolds
      refine ⟨by simp, by simp, by simp, fun _ => by simpa using hst, by simp,
        by simp, fun j h1 h2 => by simp at h2; omega, by simp⟩
    | other =>
      by_cases hel : elapsed i > timeoutMs
      · have heq : pollLoop status elapsed timeoutMs (r + 1) i delayMs
            = (.timeoutErr, i + 1, []) := by
          simp [pollLoop, hst, hel]
        rw [heq]
        unfold PollSpecHolds
        refine ⟨by simp, by simp, by simp, by simp, fun _ => by simpa using hel,
          by simp, fun j h1 h2 => by simp at h2; omega, by simp⟩
      · have heq : pollLoop status elapsed timeoutMs (r + 1) i delayMs
            = ((pollLoop status elapsed timeoutMs r (i + 1) (nextDelay delayMs)).1,
               (pollLoop status elapsed timeoutMs r (i + 1) (nextDelay delayMs)).2.1,
               delayMs ::
                 (pollLoop status elapsed timeoutMs r (i + 1) (nextDelay delayMs)).2.2) := by
          simp [pollLoop, hst, hel]
        rw [heq]
        rcases ih (i + 1) (nextDelay delayMs) with
          ⟨hr1, hr2, hok, hinv, htim, hexc, hpre, hsl⟩
        unfold PollSpecHolds
        refine ⟨by simp; omega, by simp; omega, by simpa using hok, by simpa using hinv,
          by simpa using htim, ?_, ?_, ?_⟩
        · intro hx
          simp only at hx ⊢
          rw [hexc hx]
          omega
        · intro j hij hjlt
          simp only at hjlt
          rcases Nat.eq_or_lt_of_le hij with rfl | hij2
          · exact ⟨hst, hel⟩
          · exact hpre j hij2 hjlt
        · simp only
          have hm : (pollLoop status elapsed timeoutMs r (i + 1) (nextDelay delayMs)).2.1
              - 1 - i
              = ((pollLoop status elapsed timeoutMs r (i + 1) (nextDelay delayMs)).2.1
                - 1 - (i + 1)) + 1 := by omega
          rw [hsl, hm, List.range_succ_eq_map, List.map_cons, List.map_map]
          show delayMs :: _ = delayIter delayMs 0 :: _
          refine congrArg _ ?_
          refine List.map_congr_left ?_
          intro k _
          rfl

theorem delayIter_delaySeq : ∀ (k j : Nat), delayIter (delaySeq j) k = delaySeq (j + k) := by
  intro k
  induction k with
  | zero => intro j; rfl
  | succ k ih =>
    intro j
    show delayIter (nextDelay (delaySeq j)) k = _
    rw [show nextDelay (delaySeq j) = delaySeq (j + 1) from rfl, ih (j + 1)]
    congr 1
    omega

theorem delaySeq_le_10000 : ∀ k, delaySeq k ≤ 10000
  | 0 => by decide
  | k + 1 => Nat.min_le_right _ _

/-- Counterexample to C4 as stated: with the server keeping the
authorization pending forever and no wall-clock progress, the loop
makes 13 polls — not at most 12 — before failing with the
attempts-exceeded error. -/
theorem c4_poll_counterexample :
    (pollAuthorizationValid (fun _ => PollStatus.other) (fun _ => 0)).1
        = PollResult.exceededErr ∧
    (pollAuthorizationValid (fun _ => PollStatus.other) (fun _ => 0)).2.1 = 13 ∧
    ¬ (pollAuthorizationValid (fun _ => PollStatus.other) (fun _ => 0)).2.1 ≤ 12 := by
  refine ⟨by decide, by decide, by decide⟩

/-- C4 (amended): both polling loops always terminate, with at most
13 polls (the attempt counter, capped at 12, counts completed
iterations, so the exceeded failure occurs on the 13th poll): they
return on `valid`, fail on `invalid`, fail with a timeout error once
elapsed time exceeds the budget (120 s authorization, 180 s order),
otherwise fail attempts-exceeded at exactly 13 polls; every earlier
poll saw a non-terminal status within budget, and the inter-poll
delays follow 2 s multiplied by 1.7 (floored) each iteration, capped
at 10 s. -/
theorem c4_poll_termination_and_bounds (statusA statusO : Nat → PollStatus)
    (elapsedA elapsedO : Nat → Nat) :
    ((pollAuthorizationValid statusA elapsedA).2.1 ≤ 13 ∧
      (pollOrderValid statusO elapsedO).2.1 ≤ 13) ∧
    ((pollAuthorizationValid statusA elapsedA).1 = PollResult.ok →
      statusA ((pollAuthorizationValid statusA elapsedA).2.1 - 1) = PollStatus.valid) ∧
    ((pollAuthorizationValid statusA elapsedA).1 = PollResult.invalidErr →
      statusA ((pollAuthorizationValid statusA elapsedA).2.1 - 1) = PollStatus.invalid) ∧
    ((pollAuthorizationValid statusA elapsedA).1 = PollResult.timeoutErr →
      elapsedA ((pollAuthorizationValid statusA elapsedA).2.1 - 1) > 120000) ∧
    ((pollAuthorizationValid statusA elapsedA).1 = PollResult.exceededErr →
      (pollAuthorizationValid statusA elapsedA).2.1 = 13) ∧
    (∀ j, j < (pollAuthorizationValid statusA elapsedA).2.1 - 1 →
      statusA j = PollStatus.other ∧ ¬ elapsedA j > 120000) ∧
    ((pollAuthorizationValid statusA elapsedA).2.2
      = (List.range ((pollAuthorizationValid statusA elapsedA).2.1 - 1)).map delaySeq) ∧
    ((pollOrderValid statusO elapsedO).1 = PollResult.ok →
      statusO ((pollOrderValid statusO elapsedO).2.1 - 1) = PollStatus.valid) ∧
    ((pollOrderValid statusO elapsedO).1 = PollResult.invalidErr →
      statusO ((pollOrderValid statusO elapsedO).2.1 - 1) = PollStatus.invalid) ∧
    ((pollOrderValid statusO elapsedO).1 = PollResult.timeoutErr →
      elapsedO ((pollOrderValid statusO elapsedO).2.1 - 1) > 180000) ∧
    ((pollOrderValid statusO elapsedO).1 = PollResult.exceededErr →
      (pollOrderValid statusO elapsedO).2.1 = 13) ∧
    (∀ j, j < (pollOrderValid statusO elapsedO).2.1 - 1 →
      statusO j = PollStatus.other ∧ ¬ elapsedO j > 180000) ∧
    ((pollOrderValid statusO elapsedO).2.2
      = (List.range ((pollOrderValid statusO elapsedO).2.1 - 1)).map delaySeq) ∧
    delaySeq 0 = 2000 ∧
    (∀ k, delaySeq (k + 1) = min (delaySeq k * 17 / 10) 10000) ∧
    (∀ k, delaySeq k ≤ 10000) := by
  rcases pollLoop_spec statusA elapsedA 120000 12 0 2000 with
    ⟨ha1, ha2, haok, hainv, hatim, haexc, hapre, hasl⟩
  rcases pollLoop_spec statusO elapsedO 180000 12 0 2000 with
    ⟨ho1, ho2, hook, hoinv, hotim, hoexc, hopre, hosl⟩
  have hmap : ∀ n : Nat, (List.range n).map (delayIter 2000) = (List.range n).map delaySeq := by
    intro n
    refine List.map_congr_left ?_
    intro k _
    have h0 := delayIter_delaySeq k 0
    simpa using h0
  refine ⟨⟨by simpa using ha2, by simpa using ho2⟩,
    haok, hainv, hatim, fun hx => by simpa using haexc hx,
    fun j hj => hapre j (Nat.zero_le j) hj, ?_,
    hook, hoinv, hotim, fun hx => by simpa using hoexc hx,
    fun j hj => hopre j (Nat.zero_le j) hj, ?_,
    rfl, fun k => rfl, delaySeq_le_10000⟩
  · show (pollLoop statusA elapsedA 120000 12 0 2000).2.2
        = (List.range ((pollLoop statusA elapsedA 120000 12 0 2000).2.1 - 1)).map delaySeq
    rw [hasl, Nat.sub_zero]
    exact hmap _
  · show (pollLoop statusO elapsedO 180000 12 0 2000).2.2
        = (List.range ((pollLoop statusO elapsedO 180000 12 0 2000).2.1 - 1)).map delaySeq
    rw [hosl, Nat.sub_zero]
    exact hmap _

/-- Witness for C4 (amended): the server answers `valid` on the third
poll; the loop returns success having polled three times. -/
theorem c4_poll_termination_and_bounds_witness :
    (fun i => if i < 2 then PollStatus.other else PollStatus.valid)
        ((pollAuthorizationValid
          (fun i => if i < 2 then PollStatus.other else PollStatus.valid)
          (fun _ => 0)).2.1 - 1) = PollStatus.valid ∧
    (pollAuthorizationValid
        (fun i => if i < 2 then PollStatus.other else PollStatus.valid)
        (fun _ => 0)).2.1 ≤ 13 := by
  have h := c4_poll_termination_and_bounds
    (fun i => if i < 2 then PollStatus.other else PollStatus.valid)
    (fun _ => PollStatus.other) (fun _ => 0) (fun _ => 0)
  exact ⟨h.2.1 (by decide), h.1.1⟩

/-! ### HTTP responses, transport retry, and the signed request
(src/acme/client.ts) -/

/-- A fetch `Response` as the client inspects it. `body : none`
models `res.text()` throwing; `Response.ok` is derived from the
status as the platform defines it. -/
structure JsResponse where
  status : Nat
  body : Option String
  contentType : String
  location : Option String
deriving DecidableEq

def transientStatus (s : Nat) : Bool :=
  [408, 425, 429, 500, 502, 503, 504, 522, 524, 525].contains s

/-- Loop of `fetchWithRetry`: `attemptResult a` is the outcome of the
a-th `fetch` call (`.error` models a thrown network exception).
`fuel = retries - attempt`, so `fuel = 0` is the final attempt; the
backoff sleeps between attempts do not affect the returned value. -/
def fetchLoop (attemptResult : Nat → Except String JsResponse) :
    Nat → Nat → Except String JsResponse
  | a, 0 => attemptResult a
  | a, fuel + 1 =>
    match attemptResult a with
    | .ok res =>
      if transientStatus res.status then fetchLoop attemptResult (a + 1) fuel
      else .ok res
    | .error _ => fetchLoop attemptResult (a + 1) fuel

/-- Function `fetchWithRetry` from src/acme/client.ts. -/
def fetchWithRetry (attemptResult : Nat → Except String JsResponse) (retries : Nat) :
    Except String JsResponse :=
  fetchLoop attemptResult 0 retries

theorem fetchLoop_spec (attemptResult : Nat → Except String JsResponse) :
    ∀ (f a : Nat),
      ((∀ k, a ≤ k → k ≤ a + f → (attemptResult k).isOk = true) →
        ∃ j, a ≤ j ∧ j ≤ a + f ∧ fetchLoop attemptResult a f = attemptResult j ∧
          (∀ k, a ≤ k → k < j →
            ∃ r, attemptResult k = .ok r ∧ transientStatus r.status = true) ∧
          (∀ r, attemptResult j = .ok r →
            transientStatus r.status = false ∨ j = a + f)) ∧
      (∀ e, fetchLoop attemptResult a f = .error e → attemptResult (a + f) = .error e) := by
  intro f
  induction f with
  | zero =>
    intro a
    constructor
    · intro _
      refine ⟨a, Nat.le_refl a, by omega, rfl, fun k h1 h2 => by omega, fun r _ => ?_⟩
      right
      omega
    · intro e he
      have : a + 0 = a := by omega
      rw [this]
      exact he
  | succ f ih =>
    intro a
    constructor
    · intro hall
      cases hres : attemptResult a with
      | error e =>
        have := hall a (Nat.le_refl a) (by omega)
        rw [hres] at this
        cases this
      | ok res =>
        by_cases htr : transientStatus res.status = true
        · have hrec := (ih (a + 1)).1 (fun k hk1 hk2 => hall k (by omega) (by omega))
          rcases hrec with ⟨j, hj1, hj2, hj3, hj4, hj5⟩
          refine ⟨j, by omega, by omega, ?_, ?_, ?_⟩
          · show fetchLoop attemptResult a (f + 1) = _
            rw [fetchLoop, hres]
            show (if transientStatus res.status = true then fetchLoop attemptResult (a + 1) f
              else Except.ok res) = _
            rw [if_pos htr]
            exact hj3
          · intro k hk1 hk2
            rcases Nat.eq_or_lt_of_le hk1 with rfl | hk3
            · exact ⟨res, hres, htr⟩
            · exact hj4 k hk3 hk2
          · intro r hr
            rcases hj5 r hr with h | rfl
            · exact Or.inl h
            · right
              omega
        · refine ⟨a, Nat.le_refl a, by omega, ?_, fun k h1 h2 => by omega, ?_⟩
          · show fetchLoop attemptResult a (f + 1) = _
            rw [fetchLoop, hres]
            show (if transientStatus res.status = true then fetchLoop attemptResult (a + 1) f
              else Except.ok res) = _
            rw [if_neg htr]
            try exact hres.symm
          · intro r hr
            rw [hres] at hr
            cases hr
            exact Or.inl (by simpa using htr)
    · intro e he
      rw [fetchLoop] at he
      cases hres : attemptResult a with
      | error e2 =>
        rw [hres] at he
        replace he : fetchLoop attemptResult (a + 1) f = Except.error e := he
        have := (ih (a + 1)).2 e he
        rw [show a + 1 + f = a + (f + 1) from by omega] at this
        exact this
      | ok res =>
        rw [hres] at he
        replace he : (if transientStatus res.status = true then
            fetchLoop attemptResult (a + 1) f else Except.ok res) = Except.error e := he
        split at he
        · have := (ih (a + 1)).2 e he
          rw [show a + 1 + f = a + (f + 1) from by omega] at this
          exact this
        · cases he

/-- C9: when every attempt up to `retries` produces a response,
`fetchWithRetry` never throws: it returns the first response whose
status is outside the transient set, or the final attempt's response
when all statuses are transient; an exception propagates only when
the final attempt itself threw. -/
theorem c9_fetchWithRetry_spec (attemptResult : Nat → Except String JsResponse)
    (retries : Nat) :
    ((∀ a, a ≤ retries → (attemptResult a).isOk = true) →
      ∃ j, j ≤ retries ∧ fetchWithRetry attemptResult retries = attemptResult j ∧
        (∀ k, k < j →
          ∃ r, attemptResult k = .ok r ∧ transientStatus r.status = true) ∧
        (∀ r, attemptResult j = .ok r →
          transientStatus r.status = false ∨ j = retries)) ∧
    (∀ e, fetchWithRetry attemptResult retries = .error e →
      attemptResult retries = .error e) := by
  rcases fetchLoop_spec attemptResult retries 0 with ⟨h1, h2⟩
  constructor
  · intro hall
    rcases h1 (fun k _ hk2 => hall k (by omega)) with ⟨j, _, hj2, hj3, hj4, hj5⟩
    refine ⟨j, by omega, hj3, fun k hk => hj4 k (Nat.zero_le k) hk, ?_⟩
    intro r hr
    rcases hj5 r hr with h | h
    · exact Or.inl h
    · right
      omega
  · intro e he
    have := h2 e he
    rw [show 0 + retries = retries from by omega] at this
    exact this

/-- A concrete retry oracle: one transient 503, then a 201. -/
def retryOracleExample : Nat → Except String JsResponse := fun i =>
  if i = 0 then .ok ⟨503, some "busy", "", none⟩ else .ok ⟨201, some "created", "", none⟩

/-- Witness for C9: the first attempt sees a transient 503, the
second a 201; the call returns the second response. -/
theorem c9_fetchWithRetry_spec_witness :
    ∃ j, j ≤ 3 ∧
      fetchWithRetry retryOracleExample 3 = retryOracleExample j ∧
      (∀ k, k < j → ∃ r, retryOracleExample k = .ok r ∧
        transientStatus r.status = true) ∧
      (∀ r, retryOracleExample j = .ok r →
        transientStatus r.status = false ∨ j = 3) :=
  (c9_fetchWithRetry_spec retryOracleExample 3).1
    (by
      intro a _
      by_cases h : a = 0 <;> simp [retryOracleExample, h, Except.isOk, Except.toBool])

/-- JS `s.slice(0, n)`. -/
def jsTake (s : String) (n : Nat) : String := ⟨s.data.take n⟩

/-- JS `s.length`. -/
def jsLength (s : String) : Nat := s.data.length

/-- Function `safeReadText` from src/acme/client.ts: reads the
response body, truncating to its first 300 characters; a read failure
yields the empty string. -/
def safeReadText (body : Option String) : String :=
  match body with
  | none => ""
  | some t => if jsLength t > 300 then jsTake t 300 else t

/-- Outcome of the body dispatch in `signedRequest`. -/
inductive SignedResponseBody
  | pemChain (text : String)
  | empty
  | json (text : String)
deriving DecidableEq

/-- Response handling of `AcmeClient.signedRequest`
(src/acme/client.ts): non-OK responses throw an error carrying the
status, the url and the `safeReadText` body sliced to 2000
characters; OK responses dispatch on content type and status (JSON
parsing is abstracted as the raw text). -/
def signedRequestHandleResponse (url : String) (res : JsResponse) :
    Except String SignedResponseBody :=
  if ¬ (200 ≤ res.status ∧ res.status < 300) then
    .error ("ACME request failed " ++ toString res.status ++ " " ++ url ++ ": "
      ++ jsTake (safeReadText res.body) 2000)
  else if ((List.range (res.contentType.data.length + 1)).any
      (fun i => "application/pem-certificate-chain".data.isPrefixOf
        (res.contentType.data.drop i))) then
    match res.body with
    | some t => .ok (.pemChain t)
    | none => .error "body read failed"
  else if res.status = 204 then .ok .empty
  else
    match res.body with
    | some t => .ok (.json t)
    | none => .error "body read failed"

theorem jsTake_eq_of_le (s : String) (n : Nat) (h : jsLength s ≤ n) :
    jsTake s n = s := by
  unfold jsTake
  rcases s with ⟨data⟩
  show String.mk (data.take n) = String.mk data
  rw [List.take_of_length_le h]

theorem jsLength_safeReadText_le (body : Option String) :
    jsLength (safeReadText body) ≤ 300 := by
  match body with
  | none => simp [safeReadText, jsLength]
  | some t =>
    simp only [safeReadText]
    split
    · simp only [jsLength, jsTake, List.length_take]
      omega
    · rename_i h
      simp only [jsLength] at h ⊢
      omega

set_option maxRecDepth 10000 in
/-- Counterexample to C7 as stated: for a 301-character body, the
error message carries only the first 300 characters (`safeReadText`
truncates to 300 before the 2000-character slice), not the body
truncated to its first 2000 characters. -/
theorem c7_signedRequest_error_counterexample :
    signedRequestHandleResponse "u" ⟨500, some ⟨List.replicate 301 'a'⟩, "", none⟩
        = .error ("ACME request failed 500 u: " ++ ⟨List.replicate 300 'a'⟩) ∧
    signedRequestHandleResponse "u" ⟨500, some ⟨List.replicate 301 'a'⟩, "", none⟩
        ≠ .error ("ACME request failed 500 u: "
            ++ jsTake ⟨List.replicate 301 'a'⟩ 2000) := by
  constructor
  · decide
  · decide

/-- C7 (amended): on every non-OK (post-retry) response,
`signedRequest` fails with an error carrying the response status, the
request URL, and the response body truncated to its first 300
characters by `safeReadText` (empty when the body cannot be read);
the further 2000-character slice never truncates it, so the carried
text is a prefix of the body of length at most 300. -/
theorem c7_signedRequest_error (url : String) (res : JsResponse)
    (hnotok : ¬ (200 ≤ res.status ∧ res.status < 300)) :
    signedRequestHandleResponse url res
      = .error ("ACME request failed " ++ toString res.status ++ " " ++ url ++ ": "
          ++ safeReadText res.body) ∧
    jsLength (safeReadText res.body) ≤ 300 ∧
    (∀ t, res.body = some t → safeReadText res.body = jsTake t 300) := by
  refine ⟨?_, jsLength_safeReadText_le res.body, ?_⟩
  · unfold signedRequestHandleResponse
    rw [if_pos hnotok, jsTake_eq_of_le _ _ (by
      have := jsLength_safeReadText_le res.body
      omega)]
  · intro t ht
    rw [ht]
    show (if jsLength t > 300 then jsTake t 300 else t) = jsTake t 300
    by_cases h : jsLength t > 300
    · rw [if_pos h]
    · rw [if_neg h, jsTake_eq_of_le t 300 (by omega)]

/-- Witness for C7 (amended) at a concrete 500 response. -/
theorem c7_signedRequest_error_witness :
    signedRequestHandleResponse "u" ⟨500, some "abc", "", none⟩
      = .error ("ACME request failed " ++ toString 500 ++ " " ++ "u" ++ ": "
          ++ safeReadText (some "abc")) :=
  (c7_signedRequest_error "u" ⟨500, some "abc", "", none⟩ (by decide)).1

/-! ### Certificate cache and the renewal decision (src/certStore.ts
and getOrRenewCertificateMaterial in src/index.ts)

The KV store is a partial map from keys to raw strings; `JSON.parse`
of the raw value and `new Date(iso).getTime()` (with `none` standing
for an unparseable value / NaN) are oracles, since both are platform
primitives. -/

structure CachedCert where
  domain : String
  certPem : String
  keyPem : String
  notAfterIso : String
  provider : String
  updatedAtIso : String
deriving DecidableEq

/-- JS `toLowerCase` restricted to ASCII, which covers domain
names. -/
def jsToLower (s : String) : String :=
  ⟨s.data.map (fun c => if 65 ≤ c.toNat ∧ c.toNat ≤ 90 then Char.ofNat (c.toNat + 32) else c)⟩

/-- Key builder `certKey` from src/certStore.ts. -/
def certKey (domain : String) : String := "cert:" ++ jsToLower domain

/-- Function `loadCachedCert` from src/certStore.ts: a missing raw
value or a parse failure yields `none`. -/
def loadCachedCert (kv : String → Option String) (parse : String → Option CachedCert)
    (domain : String) : Option CachedCert :=
  (kv (certKey domain)).bind parse

/-- Function `daysUntil` from src/certStore.ts over millisecond
timestamps: `Math.floor((date - now) / 86400000)`. -/
def daysUntil (dateMs nowMs : Int) : Int := (dateMs - nowMs).fdiv 86400000

/-- The material `getOrRenewCertificateMaterial` returns. -/
structure CertMaterial where
  domain : String
  certPem : String
  keyPem : String
  notAfterIso : String
  provider : String
  cached : Bool
deriving DecidableEq

/-- Cache decision of `getOrRenewCertificateMaterial` from
src/index.ts: serve the cached material with `cached := true` when
the entry exists, parses, has a finite `notAfter` and at least
`renewBeforeDays` days remain; otherwise run issuance (whose saved
material is the `issued` argument) and return it with
`cached := false`. -/
def getOrRenewCertificateMaterial (kv : String → Option String)
    (parse : String → Option CachedCert) (dateParse : String → Option Int)
    (now renewBeforeDays : Int) (domain : String) (issued : CertMaterial) :
    CertMaterial :=
  match loadCachedCert kv parse domain with
  | some c =>
    match dateParse c.notAfterIso with
    | some notAfter =>
      if daysUntil notAfter now ≥ renewBeforeDays then
        ⟨c.domain, c.certPem, c.keyPem, c.notAfterIso, c.provider, true⟩
      else { issued with cached := false }
    | none => { issued with cached := false }
  | none => { issued with cached := false }

/-- C3: the returned material has `cached = true` exactly when a
cached entry exists under `cert:` + lower(domain), parses, has a
parseable `notAfterIso`, and `daysUntil(notAfter, now)` — which is
`floor((notAfter - now) / 86400000)` — is at least
`renewBeforeDays`; in every other case the result is the issuance
result with `cached = false`. -/
theorem c3_cached_iff (kv : String → Option String)
    (parse : String → Option CachedCert) (dateParse : String → Option Int)
    (now renewBeforeDays : Int) (domain : String) (issued : CertMaterial) :
    ((getOrRenewCertificateMaterial kv parse dateParse now renewBeforeDays domain
        issued).cached = true ↔
      ∃ c notAfter, (kv ("cert:" ++ jsToLower domain)).bind parse = some c ∧
        dateParse c.notAfterIso = some notAfter ∧
        (notAfter - now).fdiv 86400000 ≥ renewBeforeDays) ∧
    ((getOrRenewCertificateMaterial kv parse dateParse now renewBeforeDays domain
        issued).cached = false →
      getOrRenewCertificateMaterial kv parse dateParse now renewBeforeDays domain
        issued = { issued with cached := false }) ∧
    (∀ d n : Int, daysUntil d n = (d - n).fdiv 86400000) := by
  refine ⟨?_, ?_, fun d n => rfl⟩
  · constructor
    · intro hc
      rcases hkv : loadCachedCert kv parse domain with _ | c
      · simp only [getOrRenewCertificateMaterial, hkv] at hc
        cases hc
      · rcases hdp : dateParse c.notAfterIso with _ | notAfter
        · simp only [getOrRenewCertificateMaterial, hkv, hdp] at hc
          cases hc
        · simp only [getOrRenewCertificateMaterial, hkv, hdp] at hc
          split at hc
          · rename_i hge
            exact ⟨c, notAfter, hkv, hdp, hge⟩
          · simp at hc
    · rintro ⟨c, notAfter, hkv, hdp, hge⟩
      have hkv2 : loadCachedCert kv parse domain = some c := hkv
      simp only [getOrRenewCertificateMaterial, hkv2, hdp]
      rw [if_pos (show daysUntil notAfter now ≥ renewBeforeDays from hge)]
  · intro hc
    rcases hkv : loadCachedCert kv parse domain with _ | c
    · simp only [getOrRenewCertificateMaterial, hkv]
    · rcases hdp : dateParse c.notAfterIso with _ | notAfter
      · simp only [getOrRenewCertificateMaterial, hkv, hdp]
      · simp only [getOrRenewCertificateMaterial, hkv, hdp] at hc ⊢
        split at hc
        · simp at hc
        · rename_i hlt
          rw [if_neg hlt]

/-- Witness for C3 at a concrete store: a fresh entry is served from
cache, and with the clock advanced past the threshold the issuance
result is returned with `cached = false`. -/
theorem c3_cached_iff_witness :
    (getOrRenewCertificateMaterial
        (fun k => if k = "cert:example.com" then some "raw" else none)
        (fun s => if s = "raw"
          then some ⟨"example.com", "CERT", "KEY", "iso", "LE", "upd"⟩ else none)
        (fun s => if s = "iso" then some 5184000000 else none)
        0 30 "Example.COM" ⟨"example.com", "C2", "K2", "iso2", "LE", true⟩).cached
      = true ∧
    getOrRenewCertificateMaterial
        (fun k => if k = "cert:example.com" then some "raw" else none)
        (fun s => if s = "raw"
          then some ⟨"example.com", "CERT", "KEY", "iso", "LE", "upd"⟩ else none)
        (fun s => if s = "iso" then some 5184000000 else none)
        5000000000 30 "Example.COM" ⟨"example.com", "C2", "K2", "iso2", "LE", true⟩
      = ⟨"example.com", "C2", "K2", "iso2", "LE", false⟩ := by
  constructor
  · exact (c3_cached_iff _ _ _ 0 30 "Example.COM" _).1.mpr
      ⟨⟨"example.com", "CERT", "KEY", "iso", "LE", "upd"⟩, 5184000000,
        by decide, by decide, by decide⟩
  · exact (c3_cached_iff _ _ _ 5000000000 30 "Example.COM" _).2.1 (by decide)

/-! ### Cloudflare DNS TXT records (src/cloudflareDns.ts)

The provider is modelled by its documented contract: the list
endpoint returns the zone's records matching the `type=TXT` and
`name` query, capped at the requested `per_page=100`; the create
endpoint rejects a record identical to an existing one (same type,
name, content) with error code 81058 and otherwise appends a record
under a fresh id. `createTxtRecordFlow` is the source's control flow
over raw endpoint responses (used for the 81058-conversion property,
which only triggers under concurrent modification);
`createTxtRecord` runs that control flow against the deterministic
provider model. -/

structure CloudflareDnsRecord where
  id : String
  name : String
  content : String
  ttl : Nat
  type : String
deriving DecidableEq

structure Zone where
  records : List CloudflareDnsRecord
  nextId : Nat
deriving DecidableEq

def txtMatches (name content : String) (r : CloudflareDnsRecord) : Bool :=
  r.type == "TXT" && r.name == name && r.content == content

/-- The list endpoint response: records of the zone filtered by
`type=TXT&name=...`, first page of 100. -/
def listTxtPage (z : Zone) (name : String) : List CloudflareDnsRecord :=
  (z.records.filter (fun r => r.type == "TXT" && r.name == name)).take 100

/-- Helper `findExistingTxtRecord` from src/cloudflareDns.ts applied
to a list response (`none` models a non-OK or malformed response,
which the source treats as no match). -/
def findInListResponse (resp : Option (List CloudflareDnsRecord))
    (name content : String) : Option CloudflareDnsRecord :=
  match resp with
  | none => none
  | some lst => lst.find? (txtMatches name content)

/-- Function `findExistingTxtRecord` against the deterministic
provider. -/
def findExistingTxtRecord (z : Zone) (name content : String) :
    Option CloudflareDnsRecord :=
  findInListResponse (some (listTxtPage z name)) name content

/-- The create endpoint on the deterministic provider. -/
def cfCreate (z : Zone) (name content : String) :
    Except (List Nat) (Zone × CloudflareDnsRecord) :=
  if z.records.any (txtMatches name content) then .error [81058]
  else
    .ok (⟨z.records ++ [⟨toString z.nextId, name, content, 60, "TXT"⟩], z.nextId + 1⟩,
      ⟨toString z.nextId, name, content, 60, "TXT"⟩)

/-- Control flow of `createTxtRecord` from src/cloudflareDns.ts over
raw responses: reuse a listed identical record with `created=false`;
otherwise create; convert a duplicate-record (81058) error into
re-listing and returning the found record with `created=false`; any
other failure throws. -/
def createTxtRecordFlow (list1 list2 : Option (List CloudflareDnsRecord))
    (createResp : Except (List Nat) CloudflareDnsRecord) (name content : String) :
    Except String (CloudflareDnsRecord × Bool) :=
  match findInListResponse list1 name content with
  | some existing => .ok (existing, false)
  | none =>
    match createResp with
    | .ok r0 => .ok (r0, true)
    | .error codes =>
      if codes.contains 81058 then
        match findInListResponse list2 name content with
        | some found => .ok (found, false)
        | none => .error "Cloudflare DNS create failed"
      else .error "Cloudflare DNS create failed"

/-- Function `createTxtRecord` against the deterministic provider,
also returning the zone after the call. -/
def createTxtRecord (z : Zone) (name content : String) :
    Except String (Zone × CloudflareDnsRecord × Bool) :=
  match findExistingTxtRecord z name content with
  | some existing => .ok (z, existing, false)
  | none =>
    match cfCreate z name content with
    | .ok (z2, r0) => .ok (z2, r0, true)
    | .error codes =>
      if codes.contains 81058 then
        match findExistingTxtRecord z name content with
        | some found => .ok (z, found, false)
        | none => .error "Cloudflare DNS create failed"
      else .error "Cloudflare DNS create failed"

theorem find?_append_of_none {α : Type} (A B : List α) (p : α → Bool)
    (h : ∀ x ∈ A, p x = false) : (A ++ B).find? p = B.find? p := by
  induction A with
  | nil => rfl
  | cons a rest ih =>
    have ha : p a = false := h a (by simp)
    show List.find? p (a :: (rest ++ B)) = _
    rw [List.find?_cons_of_neg _ (by simp [ha]), ih (fun x hx => h x (by simp [hx]))]

theorem createTxtRecord_created_inv (z : Zone) (name content : String) (z2 : Zone)
    (r0 : CloudflareDnsRecord)
    (h : createTxtRecord z name content = .ok (z2, r0, true)) :
    findExistingTxtRecord z name content = none ∧
    z.records.any (txtMatches name content) = false ∧
    z2 = ⟨z.records ++ [⟨toString z.nextId, name, content, 60, "TXT"⟩], z.nextId + 1⟩ ∧
    r0 = ⟨toString z.nextId, name, content, 60, "TXT"⟩ := by
  unfold createTxtRecord at h
  rcases hfind : findExistingTxtRecord z name content with _ | existing
  · rw [hfind] at h
    by_cases hany : z.records.any (txtMatches name content) = true
    · have hcf : cfCreate z name content = .error [81058] := by
        unfold cfCreate
        rw [if_pos hany]
      rw [hcf] at h
      simp at h
    · have hanyf : z.records.any (txtMatches name content) = false := by
        simpa using hany
      have hcf : cfCreate z name content
          = .ok (⟨z.records ++ [⟨toString z.nextId, name, content, 60, "TXT"⟩],
              z.nextId + 1⟩, ⟨toString z.nextId, name, content, 60, "TXT"⟩) := by
        unfold cfCreate
        rw [if_neg hany]
      rw [hcf] at h
      simp only [Except.ok.injEq, Prod.mk.injEq] at h
      exact ⟨rfl, hanyf, h.1.symm, h.2.1.symm⟩
  · rw [hfind] at h
    simp at h

/-- Counterexample to C5 as stated: a zone holding 101 TXT records
with the requested name, the only content match in position 101. The
list request (per_page 100) misses it, the create call hits the
duplicate-record rejection, the re-list misses it again, and the call
fails — it does not return the existing record with created=false. -/
theorem c5_createTxtRecord_counterexample :
    (∃ r ∈ (Zone.mk (List.replicate 100 ⟨"", "n", "c", 60, "TXT"⟩
        ++ [⟨"x", "n", "target", 60, "TXT"⟩]) 0).records,
      r.type = "TXT" ∧ r.name = "n" ∧ r.content = "target") ∧
    createTxtRecord (Zone.mk (List.replicate 100 ⟨"", "n", "c", 60, "TXT"⟩
        ++ [⟨"x", "n", "target", 60, "TXT"⟩]) 0) "n" "target"
      = .error "Cloudflare DNS create failed" := by
  constructor
  · exact ⟨⟨"x", "n", "target", 60, "TXT"⟩, by decide, by decide⟩
  · decide

/-- C5 (amended): `createTxtRecord` is idempotent as long as the
matching record is among the first 100 TXT records of that name the
list endpoint returns: a listed identical record is returned with
`created=false` and the zone is unchanged; a record is created
(`created=true`, appended to the zone) only when no identical record
exists in the zone; calling again after a successful create (when the
zone held fewer than 100 TXT records of that name) returns the same
record id with `created=false` and no further creation; and a
duplicate-record error (code 81058) from the create call is converted
into re-listing and returning the record found there with
`created=false`. -/
theorem c5_createTxtRecord_idempotent (z : Zone) (name content : String) :
    (∀ r0, findExistingTxtRecord z name content = some r0 →
      createTxtRecord z name content = .ok (z, r0, false)) ∧
    (∀ z2 r0, createTxtRecord z name content = .ok (z2, r0, true) →
      (∀ r ∈ z.records, txtMatches name content r = false) ∧
      z2.records = z.records ++ [r0] ∧
      r0.name = name ∧ r0.content = content ∧ r0.type = "TXT") ∧
    (∀ z2 r0, createTxtRecord z name content = .ok (z2, r0, true) →
      (z.records.filter (fun r => r.type == "TXT" && r.name == name)).length < 100 →
      createTxtRecord z2 name content = .ok (z2, r0, false)) ∧
    (∀ list1 list2 codes found,
      findInListResponse list1 name content = none →
      codes.contains 81058 = true →
      findInListResponse list2 name content = some found →
      createTxtRecordFlow list1 list2 (.error codes) name content
        = .ok (found, false)) := by
  refine ⟨?_, ?_, ?_, ?_⟩
  · intro r0 hfind
    unfold createTxtRecord
    rw [hfind]
  · intro z2 r0 hok
    rcases createTxtRecord_created_inv z name content z2 r0 hok with
      ⟨hfind, hany, hz2, hr0⟩
    refine ⟨?_, ?_, ?_, ?_, ?_⟩
    · intro r hr
      have := List.any_eq_false.mp hany r hr
      simpa using this
    · rw [hz2, hr0]
    · rw [hr0]
    · rw [hr0]
    · rw [hr0]
  · intro z2 r0 hok hlen
    rcases createTxtRecord_created_inv z name content z2 r0 hok with
      ⟨hfind, hany, hz2, hr0⟩
    have hmatch : txtMatches name content r0 = true := by
      rw [hr0]
      simp [txtMatches]
    have htypename : (fun r : CloudflareDnsRecord => r.type == "TXT" && r.name == name) r0
        = true := by
      rw [hr0]
      simp
    have hz2rec : z2.records = z.records ++ [r0] := by
      rw [hz2, hr0]
    have hfound : findExistingTxtRecord z2 name content = some r0 := by
      unfold findExistingTxtRecord findInListResponse listTxtPage
      show ((z2.records.filter (fun r => r.type == "TXT" && r.name == name)
          |>.take 100)).find? (txtMatches name content) = some r0
      rw [hz2rec, List.filter_append]
      rw [show [r0].filter (fun r => r.type == "TXT" && r.name == name) = [r0] from by
        simp [htypename]]
      rw [List.take_of_length_le (by
        rw [List.length_append]
        simp only [List.length_singleton]
        omega)]
      rw [find?_append_of_none _ _ _ (fun x hx => by
        have hxz : x ∈ z.records := List.mem_of_mem_filter hx
        have := List.any_eq_false.mp hany x hxz
        simpa using this)]
      rw [List.find?_cons_of_pos _ hmatch]
    unfold createTxtRecord
    rw [hfound]
  · intro list1 list2 codes found h1 h2 h3
    simp only [createTxtRecordFlow, h1, h2, if_true, h3]

/-- Witness for C5 (amended): a second call over a zone already
holding the record returns it with `created=false` and the unchanged
zone. -/
theorem c5_createTxtRecord_idempotent_witness :
    createTxtRecord ⟨[⟨"7", "n", "v", 60, "TXT"⟩], 0⟩ "n" "v"
      = .ok (⟨[⟨"7", "n", "v", 60, "TXT"⟩], 0⟩, ⟨"7", "n", "v", 60, "TXT"⟩, false) :=
  (c5_createTxtRecord_idempotent ⟨[⟨"7", "n", "v", 60, "TXT"⟩], 0⟩ "n" "v").1
    ⟨"7", "n", "v", 60, "TXT"⟩ (by decide)

/-! ### Per-authorization TXT lifecycle in obtainCertificateSingle
(src/acme/obtain.ts)

The loop over `order.authorizations` is modelled from the point where
the order exists (earlier failures — account, newOrder, zone
resolution — create no TXT records). Network and DNS calls are
oracles; the DNS-relevant effects of the attempt are logged in a
trace. The `finally` block attempts deletion exactly when `created`
is true and swallows a deletion failure (logging only); the sleep for
DNS propagation has no modelled effect. The post-loop steps (CSR,
finalize, order polling, download, key export) are the abstract
`rest` computation, which touches no TXT records. -/

inductive DnsEvent
  | createdTxt (id : String) (fresh : Bool)
  | deleteAttempt (id : String) (ok : Bool)
deriving DecidableEq

structure ObtainOracle where
  challenge : String → Except String (String × String × String)
  txtValue : String → String
  createTxt : String → String → Except String (String × Bool)
  respond : String → Except String Unit
  pollAuthz : String → Except String Unit
  deleteRec : String → Except String Unit

/-- Function `dns01RecordName` from src/cloudflareDns.ts: lower-case,
strip one leading wildcard label, prefix `_acme-challenge.`. -/
def dns01RecordName (domainOrWildcard : String) : String :=
  let lower := jsToLower domainOrWildcard
  let stripped : String :=
    if lower.data.take 2 = ['*', '.'] then ⟨lower.data.drop 2⟩ else lower
  "_acme-challenge." ++ stripped

/-- One iteration of the authorization loop in
`obtainCertificateSingle`. -/
def runAuthz (O : ObtainOracle) (authzUrl : String) :
    Except String Unit × List DnsEvent :=
  match O.challenge authzUrl with
  | .error e => (.error e, [])
  | .ok (token, challengeUrl, identifier) =>
    let recordName := dns01RecordName identifier
    let value := O.txtValue token
    match O.createTxt recordName value with
    | .error e => (.error e, [])
    | .ok (rid, created) =>
      let body : Except String Unit :=
        match O.respond challengeUrl with
        | .error e => .error e
        | .ok _ => O.pollAuthz authzUrl
      if created then
        let delOk : Bool :=
          match O.deleteRec rid with
          | .ok _ => true
          | .error _ => false
        (body, [.createdTxt rid created, .deleteAttempt rid delOk])
      else (body, [.createdTxt rid created])

/-- The loop over all authorization URLs; a failed iteration
propagates after its own cleanup, later iterations do not run. -/
def runAuthzLoop (O : ObtainOracle) : List String → Except String Unit × List DnsEvent
  | [] => (.ok (), [])
  | a :: restUrls =>
    match runAuthz O a with
    | (.error e, evs) => (.error e, evs)
    | (.ok _, evs) =>
      let r2 := runAuthzLoop O restUrls
      (r2.1, evs ++ r2.2)

/-- Function `obtainCertificateSingle` from src/acme/obtain.ts, from
the authorization loop on; `rest` is the outcome of the post-loop
steps. -/
def obtainCertificateSingle (O : ObtainOracle) (authzUrls : List String)
    (rest : Except String String) : Except String String × List DnsEvent :=
  match runAuthzLoop O authzUrls with
  | (.error e, evs) => (.error e, evs)
  | (.ok _, evs) => (rest, evs)

/-- Shape of the events of a single iteration. -/
theorem runAuthz_events_shape (O : ObtainOracle) (a : String) :
    (runAuthz O a).2 = [] ∨
    (∃ id, (runAuthz O a).2 = [.createdTxt id false]) ∨
    (∃ id ok, (runAuthz O a).2 = [.createdTxt id true, .deleteAttempt id ok]) := by
  unfold runAuthz
  rcases O.challenge a with e | ⟨token, challengeUrl, identifier⟩
  · left
    rfl
  · rcases hc : O.createTxt (dns01RecordName identifier) (O.txtValue token) with
      e | ⟨rid, created⟩
    · left
      simp [hc]
    · rcases created with _ | _
      · right
        left
        exact ⟨rid, by simp [hc]⟩
      · right
        right
        exact ⟨rid, (match O.deleteRec rid with | .ok _ => true | .error _ => false),
          by simp [hc]⟩

theorem runAuthz_created_has_delete (O : ObtainOracle) (a : String) (id : String)
    (h : DnsEvent.createdTxt id true ∈ (runAuthz O a).2) :
    ∃ ok, DnsEvent.deleteAttempt id ok ∈ (runAuthz O a).2 := by
  rcases runAuthz_events_shape O a with hs | ⟨id2, hs⟩ | ⟨id2, ok, hs⟩
  · rw [hs] at h
    cases h
  · rw [hs] at h
    simp at h
  · rw [hs] at h ⊢
    simp only [List.mem_cons, List.not_mem_nil, or_false] at h
    rcases h with h | h
    · cases h
      exact ⟨ok, by simp⟩
    · cases h
  -- the second branch of the final rcases is impossible: a
  -- deleteAttempt event never equals a createdTxt event

theorem runAuthz_delete_only_created (O : ObtainOracle) (a : String) (id : String)
    (ok : Bool) (h : DnsEvent.deleteAttempt id ok ∈ (runAuthz O a).2) :
    DnsEvent.createdTxt id true ∈ (runAuthz O a).2 := by
  rcases runAuthz_events_shape O a with hs | ⟨id2, hs⟩ | ⟨id2, ok2, hs⟩
  · rw [hs] at h
    cases h
  · rw [hs] at h
    simp at h
  · rw [hs] at h ⊢
    simp only [List.mem_cons, List.not_mem_nil, or_false] at h
    rcases h with h | h
    · cases h
    · cases h
      simp

theorem runAuthzLoop_created_has_delete (O : ObtainOracle) :
    ∀ (urls : List String) (id : String),
      DnsEvent.createdTxt id true ∈ (runAuthzLoop O urls).2 →
      ∃ ok, DnsEvent.deleteAttempt id ok ∈ (runAuthzLoop O urls).2 := by
  intro urls
  induction urls with
  | nil =>
    intro id h
    simp [runAuthzLoop] at h
  | cons a restUrls ih =>
    intro id h
    rcases hr : runAuthz O a with ⟨res, evs⟩
    rcases res with e | u
    · simp only [runAuthzLoop, hr] at h ⊢
      rcases runAuthz_created_has_delete O a id (by rw [hr]; exact h) with ⟨ok, hok⟩
      rw [hr] at hok
      exact ⟨ok, hok⟩
    · simp only [runAuthzLoop, hr] at h ⊢
      rcases List.mem_append.mp h with h2 | h2
      · rcases runAuthz_created_has_delete O a id (by rw [hr]; exact h2) with ⟨ok, hok⟩
        rw [hr] at hok
        exact ⟨ok, List.mem_append.mpr (Or.inl hok)⟩
      · rcases ih id h2 with ⟨ok, hok⟩
        exact ⟨ok, List.mem_append.mpr (Or.inr hok)⟩

theorem runAuthzLoop_delete_only_created (O : ObtainOracle) :
    ∀ (urls : List String) (id : String) (ok : Bool),
      DnsEvent.deleteAttempt id ok ∈ (runAuthzLoop O urls).2 →
      DnsEvent.createdTxt id true ∈ (runAuthzLoop O urls).2 := by
  intro urls
  induction urls with
  | nil =>
    intro id ok h
    simp [runAuthzLoop] at h
  | cons a restUrls ih =>
    intro id ok h
    rcases hr : runAuthz O a with ⟨res, evs⟩
    rcases res with e | u
    · simp only [runAuthzLoop, hr] at h ⊢
      have := runAuthz_delete_only_created O a id ok (by rw [hr]; exact h)
      rw [hr] at this
      exact this
    · simp only [runAuthzLoop, hr] at h ⊢
      rcases List.mem_append.mp h with h2 | h2
      · have := runAuthz_delete_only_created O a id ok (by rw [hr]; exact h2)
        rw [hr] at this
        exact List.mem_append.mpr (Or.inl this)
      · exact List.mem_append.mpr (Or.inr (ih id ok h2))

theorem runAuthz_fst_ignores_deleteRec (O : ObtainOracle)
    (f : String → Except String Unit) (a : String) :
    (runAuthz { O with deleteRec := f } a).1 = (runAuthz O a).1 := by
  unfold runAuthz
  rcases O.challenge a with e | ⟨token, challengeUrl, identifier⟩
  · rfl
  · rcases hc : O.createTxt (dns01RecordName identifier) (O.txtValue token) with
      e | ⟨rid, created⟩
    · simp [hc]
    · rcases created with _ | _ <;> simp [hc]

theorem runAuthzLoop_cons (O : ObtainOracle) (a : String) (restUrls : List String) :
    runAuthzLoop O (a :: restUrls)
      = (match (runAuthz O a).1 with
         | .error e => (.error e, (runAuthz O a).2)
         | .ok _ => ((runAuthzLoop O restUrls).1,
             (runAuthz O a).2 ++ (runAuthzLoop O restUrls).2)) := by
  rcases hr : runAuthz O a with ⟨res, evs⟩
  rcases res with e | u <;> simp [runAuthzLoop, hr]

theorem runAuthzLoop_fst_ignores_deleteRec (O : ObtainOracle)
    (f : String → Except String Unit) :
    ∀ urls : List String,
      (runAuthzLoop { O with deleteRec := f } urls).1 = (runAuthzLoop O urls).1 := by
  intro urls
  induction urls with
  | nil => rfl
  | cons a restUrls ih =>
    rw [runAuthzLoop_cons, runAuthzLoop_cons, runAuthz_fst_ignores_deleteRec O f a]
    rcases hfst : (runAuthz O a).1 with e | u <;> simp [ih]

theorem obtainCertificateSingle_fst (O : ObtainOracle) (urls : List String)
    (rest : Except String String) :
    (obtainCertificateSingle O urls rest).1
      = (match (runAuthzLoop O urls).1 with
         | .error e => .error e
         | .ok _ => rest) := by
  unfold obtainCertificateSingle
  rcases runAuthzLoop O urls with ⟨res, evs⟩
  rcases res with e | u <;> simp

theorem obtain_events_eq_loop_events (O : ObtainOracle) (urls : List String)
    (rest : Except String String) :
    (obtainCertificateSingle O urls rest).2 = (runAuthzLoop O urls).2 := by
  unfold obtainCertificateSingle
  rcases hr : runAuthzLoop O urls with ⟨res, evs⟩
  rcases res with e | u <;> simp

/-- A run in which every network and DNS call succeeds but every
record deletion fails. -/
def c2FailingDeleteOracle : ObtainOracle :=
  ⟨fun _ => .ok ("t", "cu", "ex.com"), fun _ => "v", fun _ _ => .ok ("r1", true),
   fun _ => .ok (), fun _ => .ok (), fun _ => .error "boom"⟩

/-- Counterexample to C2 as stated: the attempt returns successfully,
the record it created is NOT deleted (the deletion attempt failed and
was swallowed), yet the claim demands every created record be deleted
before a successful return. -/
theorem c2_txt_cleanup_counterexample :
    obtainCertificateSingle c2FailingDeleteOracle ["a1"] (.ok "CERT")
      = (.ok "CERT", [.createdTxt "r1" true, .deleteAttempt "r1" false]) ∧
    DnsEvent.createdTxt "r1" true
      ∈ (obtainCertificateSingle c2FailingDeleteOracle ["a1"] (.ok "CERT")).2 ∧
    DnsEvent.deleteAttempt "r1" true
      ∉ (obtainCertificateSingle c2FailingDeleteOracle ["a1"] (.ok "CERT")).2 := by
  refine ⟨by decide, by decide, by decide⟩

/-- C2 (amended): on every exit path of a single-provider attempt —
successful or failed at any step — deletion is attempted at least
once, before return, for every TXT record the attempt itself created
(`created = true`); the record is actually deleted exactly when that
delete call succeeds. A record found pre-existing
(`created = false`) is never passed to deletion. The outcome of the
attempt never depends on the delete calls, so a deletion error never
changes it. -/
theorem c2_txt_cleanup (O : ObtainOracle) (urls : List String)
    (rest : Except String String) :
    (∀ id, DnsEvent.createdTxt id true ∈ (obtainCertificateSingle O urls rest).2 →
      ∃ ok, DnsEvent.deleteAttempt id ok ∈ (obtainCertificateSingle O urls rest).2) ∧
    (∀ id ok, DnsEvent.deleteAttempt id ok ∈ (obtainCertificateSingle O urls rest).2 →
      DnsEvent.createdTxt id true ∈ (obtainCertificateSingle O urls rest).2) ∧
    (∀ f, (obtainCertificateSingle { O with deleteRec := f } urls rest).1
      = (obtainCertificateSingle O urls rest).1) := by
  refine ⟨?_, ?_, ?_⟩
  · intro id h
    rw [obtain_events_eq_loop_events] at h ⊢
    exact runAuthzLoop_created_has_delete O urls id h
  · intro id ok h
    rw [obtain_events_eq_loop_events] at h ⊢
    exact runAuthzLoop_delete_only_created O urls id ok h
  · intro f
    rw [obtainCertificateSingle_fst, obtainCertificateSingle_fst,
      runAuthzLoop_fst_ignores_deleteRec O f urls]

/-- A run in which every call, deletions included, succeeds. -/
def c2CleanOracle : ObtainOracle :=
  ⟨fun _ => .ok ("t", "cu", "ex.com"), fun _ => "v", fun _ _ => .ok ("r1", true),
   fun _ => .ok (), fun _ => .ok (), fun _ => .ok ()⟩

/-- Witness for C2 (amended): the record created in a clean run has
its deletion attempted (successfully). -/
theorem c2_txt_cleanup_witness :
    ∃ ok, DnsEvent.deleteAttempt "r1" ok
      ∈ (obtainCertificateSingle c2CleanOracle ["a1"] (.ok "CERT")).2 :=
  (c2_txt_cleanup c2CleanOracle ["a1"] (.ok "CERT")).1 "r1" (by decide)
